import Mathlib

/-!
# Grouping functions of docker-gen (`internal/template/groupby.go`)

A shallow embedding of `generalizedGroupBy`, `groupBy`, `groupByKeys`,
`groupByLabel`, `groupByMulti`, `splitKeyValuePairs` and
`groupByMultiKeyValuePairs`, followed by theorems about them.

Modelling conventions.

* A Go `string` is the list of its characters (`Str`).
* A Go `map[string]T` is an association list (`GoMap T`) read through `get`
  and written through `set`; `set` keeps at most one entry per key.  The order
  of the entries is not observable in Go: a `range` loop over a map is modelled
  with an explicit iteration order (`KeyOrder`).
* A Go call either returns or panics (`Exec`); a returned `(map, error)` pair is
  a pair of options, `none` standing for `nil`.
* An element of the input slice is a `Slot`: a value, or a nil pointer, on
  which `reflect.Indirect(entriesVal.Index(i)).Interface()` panics.
-/

namespace GroupBy

/-! ## Strings and the `strings` package -/

/-- A Go string, as the sequence of its characters. -/
abbrev Str := List Char

/-- `strings.Index(s, sep)`: the least `i` such that `sep` starts `s[i:]`, if any. -/
def index : Str → Str → Option Nat
  | [], sep => if sep = [] then some 0 else none
  | c :: s, sep =>
    if sep.isPrefixOf (c :: s) then some 0 else (index s sep).map (· + 1)

/-- `strings.Contains(s, substr)`, which is `Index(s, substr) >= 0`. -/
def contains (s substr : Str) : Bool := (index s substr).isSome

/-- The loop of `strings.genSplit` for a non-empty separator: cut at the first
occurrence of `sep`, continue with what follows it.  `n` bounds the number of
cuts. -/
def splitLoop (sep : Str) : Nat → Str → List Str
  | 0, s => [s]
  | n + 1, s =>
    match index s sep with
    | none => [s]
    | some m => s.take m :: splitLoop sep n (s.drop (m + sep.length))

/-- `strings.Split(s, sep)`.  With an empty separator the string is exploded
into its characters (and `Split("", "")` is the empty list).  Otherwise the
string is cut at each successive occurrence of `sep`; Go bounds the loop by
`Count(s, sep)`, here the bound is `len(s)`, which is never smaller. -/
def split (s sep : Str) : List Str :=
  if sep = [] then s.map (fun c => [c]) else splitLoop sep s.length s

/-! ## Go maps -/

/-- A Go `map[string]T`. -/
abbrev GoMap (β : Type) := List (Str × β)

namespace GoMap

/-- The two-valued read `v, ok := m[k]`. -/
def get {β : Type} : GoMap β → Str → Option β
  | [], _ => none
  | (k1, v) :: t, k => if k1 = k then some v else get t k

/-- The write `m[k] = v`. -/
def set {β : Type} : GoMap β → Str → β → GoMap β
  | [], k, v => [(k, v)]
  | (k1, v1) :: t, k, v => if k1 = k then (k, v) :: t else (k1, v1) :: set t k v

/-- The keys of the map. -/
def keys {β : Type} (m : GoMap β) : List Str := m.map Prod.fst

end GoMap

/-- The order in which a `range` loop visits the keys of a map: a function
from the list of keys to the list of keys as visited. -/
abbrev KeyOrder := List Str → List Str

/-- A `range` loop visits every key exactly once. -/
def KeyOrder.Valid (ord : KeyOrder) : Prop := ∀ ks : List Str, (ord ks).Perm ks

/-! ## Values -/

/-- Modelled from the spec: `context.RuntimeContainer` is declared outside this
file; of its fields the grouping code reads only `Labels`, the label map
(string to string) of the element. `ID` stands for the remaining fields. -/
structure RuntimeContainer where
  ID : Str
  Labels : GoMap Str
deriving DecidableEq, Repr

/-- A Go `interface{}` value as this file inspects it: `nil`, a `string`, a
`context.RuntimeContainer`, or a value of any other dynamic type. -/
inductive Value where
  | nil : Value
  | str (s : Str) : Value
  | container (c : RuntimeContainer) : Value
  | other (tag : Nat) : Value
deriving DecidableEq, Repr

/-- Whether the dynamic type of the value is `string`, the `ok` of
`_, ok := v.(string)`. -/
def Value.isStr : Value → Bool
  | .str _ => true
  | _ => false

/-- Whether the dynamic type of the value is `context.RuntimeContainer`, the
`ok` of `_, ok := v.(context.RuntimeContainer)`. -/
def Value.isContainer : Value → Bool
  | .container _ => true
  | _ => false

/-- An element of the array or slice, as `entriesVal.Index(i)` gives it:
`val v` is an element (a value, or a non-nil pointer to it) for which
`reflect.Indirect(entriesVal.Index(i)).Interface()` yields `v`; `nilPtr` is a
nil pointer element, for which `reflect.Indirect` gives the zero
`reflect.Value`, on which `Interface()` panics. -/
inductive Slot where
  | val (v : Value) : Slot
  | nilPtr : Slot
deriving DecidableEq, Repr

/-- The `entries interface{}` argument: an array or slice, given by its
elements, or a value of another kind. -/
inductive Entries where
  | seq (xs : List Slot) : Entries
  | notSeq (v : Value) : Entries
deriving DecidableEq, Repr

/-- The slice whose elements are the values `C`: none of its elements is a nil
pointer. -/
abbrev Entries.ofValues (C : List Value) : Entries := .seq (C.map Slot.val)

/-- A Go `error` value: the error of the collection adapter, which names the
calling operation and the rejected value, or an error built by
`fmt.Errorf(format, args...)`. -/
inductive Error where
  | arrayExpected (funcName : Str) (received : Value) : Error
  | errorf (format : Str) (args : List Value) : Error
deriving DecidableEq, Repr

/-- A run-time panic: a failed type assertion `v.(string)`, an index out of
range, or `reflect.Value.Interface` called on the zero `reflect.Value`. -/
inductive Panic where
  | typeAssertion (v : Value) : Panic
  | indexOutOfRange (i len : Nat) : Panic
  | zeroValueInterface : Panic
deriving DecidableEq, Repr

/-- The outcome of a Go call: it returns a value or panics. -/
inductive Exec (β : Type) where
  | ret (b : β) : Exec β
  | panic (p : Panic) : Exec β
deriving DecidableEq, Repr

/-- The result map of the grouping functions, `map[string][]interface{}`. -/
abbrev Groups := GoMap (List Value)

/-- The read `groups[k]` of a bucket: `nil` (the empty slice) for a missing key. -/
def bucket (groups : Groups) (k : Str) : List Value := (groups.get k).getD []

/-- The returned pair `(map[string][]interface{}, error)`. -/
abbrev GroupResult := Option Groups × Option Error

/-! ## The program -/

/-- Modelled from the spec: `getArrayValues`, the collection adapter, is defined
outside this file.  It succeeds only on an ordered, indexable sequence, whose
elements it exposes in order; on any other value it fails with an error naming
the calling operation and the rejected value. -/
def getArrayValues (funcName : Str) (entries : Entries) : Except Error (List Slot) :=
  match entries with
  | .seq xs => .ok xs
  | .notSeq v => .error (.arrayExpected funcName v)

/-- The `for` loop of `generalizedGroupBy` over the elements not yet visited,
with the map `groups` built so far.  On a nil pointer element the statement
`v := reflect.Indirect(entriesVal.Index(i)).Interface()` panics. -/
def groupLoop (getValue : Value → Value × Option Error)
    (addEntry : Groups → Value → Value → Exec Groups) :
    List Slot → Groups → Exec GroupResult
  | [], groups => .ret (some groups, none)
  | .nilPtr :: _, _ => .panic .zeroValueInterface
  | .val v :: rest, groups =>
    match getValue v with
    | (_, some err) => .ret (none, some err)
    | (value, none) =>
      if value ≠ Value.nil then
        match addEntry groups value v with
        | .panic p => .panic p
        | .ret groups1 => groupLoop getValue addEntry rest groups1
      else groupLoop getValue addEntry rest groups

/-- `generalizedGroupBy`: adapt the collection, then run the loop from the
empty map.  `addEntry` updates the map in place in Go; here it returns the
updated map, or panics. -/
def generalizedGroupBy (funcName : Str) (entries : Entries)
    (getValue : Value → Value × Option Error)
    (addEntry : Groups → Value → Value → Exec Groups) : Exec GroupResult :=
  match getArrayValues funcName entries with
  | .error err => .ret (none, some err)
  | .ok entriesVal => groupLoop getValue addEntry entriesVal []

/-- `generalizedGroupByKey`: the extractor is `deepGet(v, key)`, which never
fails.  `deepGet` is defined outside this file and is a parameter. -/
def generalizedGroupByKey (deepGet : Value → Str → Value) (funcName : Str)
    (entries : Entries) (key : Str)
    (addEntry : Groups → Value → Value → Exec Groups) : Exec GroupResult :=
  generalizedGroupBy funcName entries (fun v => (deepGet v key, none)) addEntry

/-- The statements `groups[item] = append(groups[item], v)` for each `item`
of `items`, in order. -/
def appendEach (groups : Groups) (items : List Str) (v : Value) : Groups :=
  items.foldl (fun g item => g.set item (bucket g item ++ [v])) groups

/-- The assignment function of `groupBy`, `groupByKeys` and `groupByLabel`:
`groups[value.(string)] = append(groups[value.(string)], v)`. -/
def addSingle (groups : Groups) (value v : Value) : Exec Groups :=
  match value with
  | .str s => .ret (groups.set s (bucket groups s ++ [v]))
  | _ => .panic (.typeAssertion value)

/-- `groupByMulti`. -/
def groupByMulti (deepGet : Value → Str → Value) (entries : Entries)
    (key sep : Str) : Exec GroupResult :=
  generalizedGroupByKey deepGet "groupByMulti".toList entries key
    (fun groups value v =>
      match value with
      | .str s => .ret (appendEach groups (split s sep) v)
      | _ => .panic (.typeAssertion value))

/-- `groupBy`. -/
def groupBy (deepGet : Value → Str → Value) (entries : Entries) (key : Str) :
    Exec GroupResult :=
  generalizedGroupByKey deepGet "groupBy".toList entries key addSingle

/-- `groupByKeys`.  `ord` is the order in which `for k := range keys` visits
the keys. -/
def groupByKeys (ord : KeyOrder) (deepGet : Value → Str → Value)
    (entries : Entries) (key : Str) : Exec (Option (List Str) × Option Error) :=
  match generalizedGroupByKey deepGet "groupByKeys".toList entries key addSingle with
  | .panic p => .panic p
  | .ret (_, some err) => .ret (none, some err)
  | .ret (keys, none) =>
    .ret (some ((ord (keys.getD []).keys).foldl (fun ret k => ret ++ [k]) []), none)

/-- The format string of the error of `groupByLabel`. -/
def groupByLabelFormat : Str :=
  "must pass an array or slice of RuntimeContainer to 'groupByLabel'; received %v".toList

/-- The extractor `getLabel` of `groupByLabel`. -/
def getLabel (label : Str) (v : Value) : Value × Option Error :=
  match v with
  | .container c =>
    match c.Labels.get label with
    | some value => (.str value, none)
    | none => (.nil, none)
  | _ => (.nil, some (.errorf groupByLabelFormat [v]))

/-- `groupByLabel`. -/
def groupByLabel (entries : Entries) (label : Str) : Exec GroupResult :=
  generalizedGroupBy "groupByLabel".toList entries (getLabel label) addSingle

/-- The body of the loop of `splitKeyValuePairs`: the key and the value
derived from one list item.  The indexed reads `splitted[0]` and `splitted[1]`
panic when out of range. -/
def kvpEntry (kvp kvpSep : Str) (defaultKey : List Str) : Exec (Str × Str) :=
  if contains kvp kvpSep then
    let splitted := split kvp kvpSep
    match splitted with
    | [] => .panic (.indexOutOfRange 0 0)
    | [_] => .panic (.indexOutOfRange 1 1)
    | key :: value :: _ => .ret (key, value)
  else
    match defaultKey with
    | [] => .ret (kvp, kvp)
    | d :: _ => if d = [] then .ret (kvp, kvp) else .ret (d, kvp)

/-- The loop of `splitKeyValuePairs` over the list items not yet visited. -/
def kvpLoop (kvpSep : Str) (defaultKey : List Str) :
    List Str → GoMap Str → Exec (GoMap Str)
  | [], output => .ret output
  | kvp :: rest, output =>
    match kvpEntry kvp kvpSep defaultKey with
    | .panic p => .panic p
    | .ret (key, value) => kvpLoop kvpSep defaultKey rest (output.set key value)

/-- `splitKeyValuePairs`; `defaultKey` is the variadic argument. -/
def splitKeyValuePairs (input listSep kvpSep : Str) (defaultKey : List Str) :
    Exec (GoMap Str) :=
  kvpLoop kvpSep defaultKey (split input listSep) []

/-- `groupByMultiKeyValuePairs`.  `ord` is the order in which
`for key := range keyValuePairs` visits the keys. -/
def groupByMultiKeyValuePairs (ord : KeyOrder) (deepGet : Value → Str → Value)
    (entries : Entries) (key listSep kvpSep defaultKey : Str) : Exec GroupResult :=
  generalizedGroupByKey deepGet "groupByMultiKeyValuePairs".toList entries key
    (fun groups value v =>
      match value with
      | .str s =>
        match splitKeyValuePairs s listSep kvpSep [defaultKey] with
        | .panic p => .panic p
        | .ret keyValuePairs => .ret (appendEach groups (ord keyValuePairs.keys) v)
      | _ => .panic (.typeAssertion value))

/-! ## Notions used to state the properties -/

/-- The keys of the buckets to which `groupBy` and `groupByKeys` append the
element `v`: the string its path resolves to, if it resolves to one. -/
def pathKeys (deepGet : Value → Str → Value) (key : Str) (v : Value) : List Str :=
  match deepGet v key with
  | .str s => [s]
  | _ => []

/-- The keys of the buckets to which `groupByLabel` appends the element `v`:
the value of the label, if `v` is a container that has the label. -/
def labelKeys (label : Str) (v : Value) : List Str :=
  match v with
  | .container c =>
    (match c.Labels.get label with
     | some value => [value]
     | none => [])
  | _ => []

/-- The keys of the buckets to which `groupByMulti` appends the element `v`,
in order and with repetitions: the items of `Split(value, sep)`. -/
def multiKeys (deepGet : Value → Str → Value) (key sep : Str) (v : Value) : List Str :=
  match deepGet v key with
  | .str s => split s sep
  | _ => []

/-- The keys of the buckets to which `groupByMultiKeyValuePairs` appends the
element `v`, in the order `ord` of the `range` loop: the keys of the parsed
map. -/
def kvpKeys (ord : KeyOrder) (deepGet : Value → Str → Value)
    (key listSep kvpSep defaultKey : Str) (v : Value) : List Str :=
  match deepGet v key with
  | .str s =>
    (match splitKeyValuePairs s listSep kvpSep [defaultKey] with
     | .ret keyValuePairs => ord keyValuePairs.keys
     | .panic _ => [])
  | _ => []

/-- The list `b` consists of the elements of `C` at the indices `idx`, in the
order of `idx`. -/
def ReadsAt (C : List Value) (idx : List Nat) (b : List Value) : Prop :=
  idx.map (fun i => C[i]?) = b.map some

/-- Folding an assignment function over pairs of an extracted value and its
element, in order, from the map `groups`; a panic of the assignment ends the
fold. -/
def foldAssign (addEntry : Groups → Value → Value → Exec Groups) :
    List (Value × Value) → Groups → Exec Groups
  | [], groups => .ret groups
  | (value, v) :: rest, groups =>
    match addEntry groups value v with
    | .panic p => .panic p
    | .ret groups1 => foldAssign addEntry rest groups1

/-- Two Go maps are the same map: the same keys, bound to the same values. -/
def GoMap.Same {β : Type} (m1 m2 : GoMap β) : Prop := ∀ k, m1.get k = m2.get k

/-- Two calls have the same outcome: the same panic, or the same error and
the same map. -/
def SameOutcome : Exec GroupResult → Exec GroupResult → Prop
  | .panic p1, .panic p2 => p1 = p2
  | .ret (some g1, e1), .ret (some g2, e2) => GoMap.Same g1 g2 ∧ e1 = e2
  | .ret (none, e1), .ret (none, e2) => e1 = e2
  | _, _ => False

/-! ## Lemmas on maps -/

theorem GoMap.get_set {β : Type} (m : GoMap β) (k k2 : Str) (v : β) :
    (m.set k v).get k2 = if k = k2 then some v else m.get k2 := by
  induction m with
  | nil => simp [GoMap.set, GoMap.get]
  | cons p t ih =>
    obtain ⟨k1, v1⟩ := p
    by_cases h1 : k1 = k
    · subst h1
      by_cases h2 : k1 = k2 <;> simp [GoMap.set, GoMap.get, h2]
    · by_cases h2 : k1 = k2
      · subst h2
        have h3 : ¬ k = k1 := fun h => h1 h.symm
        simp [GoMap.set, GoMap.get, h1, h3]
      · simp [GoMap.set, GoMap.get, h1, h2, ih]

theorem GoMap.mem_keys_set {β : Type} (m : GoMap β) (k k2 : Str) (v : β) :
    k2 ∈ (m.set k v).keys ↔ k2 = k ∨ k2 ∈ m.keys := by
  induction m with
  | nil =>
    show k2 ∈ [k] ↔ k2 = k ∨ k2 ∈ ([] : List Str)
    simp only [List.mem_singleton, List.not_mem_nil, or_false]
  | cons p t ih =>
    obtain ⟨k1, v1⟩ := p
    by_cases h1 : k1 = k
    · subst h1
      simp only [GoMap.set, GoMap.keys, if_true, List.map_cons, List.mem_cons]
      tauto
    · have ih2 : k2 ∈ List.map Prod.fst (GoMap.set t k v) ↔ k2 = k ∨ k2 ∈ List.map Prod.fst t := ih
      simp only [GoMap.set, GoMap.keys, h1, if_false, List.map_cons, List.mem_cons, ih2]
      tauto

theorem GoMap.nodup_keys_set {β : Type} (m : GoMap β) (k : Str) (v : β)
    (h : m.keys.Nodup) : (m.set k v).keys.Nodup := by
  induction m with
  | nil =>
    show [k].Nodup
    exact List.nodup_singleton k
  | cons p t ih =>
    obtain ⟨k1, v1⟩ := p
    have ht : (GoMap.keys t).Nodup := (List.nodup_cons.mp h).2
    have hk : k1 ∉ GoMap.keys t := (List.nodup_cons.mp h).1
    by_cases h1 : k1 = k
    · subst h1
      have : (GoMap.set ((k1, v1) :: t) k1 v).keys = k1 :: GoMap.keys t := by
        simp only [GoMap.set, GoMap.keys, if_true, List.map_cons]
      rw [this]
      exact List.nodup_cons.mpr ⟨hk, ht⟩
    · have hn : k1 ∉ (GoMap.set t k v).keys := by
        rw [GoMap.mem_keys_set]
        rintro (h2 | h2)
        · exact h1 h2
        · exact hk h2
      have : (GoMap.set ((k1, v1) :: t) k v).keys = k1 :: (GoMap.set t k v).keys := by
        simp only [GoMap.set, GoMap.keys, h1, if_false, List.map_cons]
      rw [this]
      exact List.nodup_cons.mpr ⟨hn, ih ht⟩

theorem GoMap.mem_keys_iff {β : Type} (m : GoMap β) (k : Str) :
    k ∈ m.keys ↔ m.get k ≠ none := by
  induction m with
  | nil =>
    show k ∈ ([] : List Str) ↔ (none : Option β) ≠ none
    simp only [List.not_mem_nil, ne_eq, not_true_eq_false]
  | cons p t ih =>
    obtain ⟨k1, v1⟩ := p
    have ih2 : k ∈ List.map Prod.fst t ↔ GoMap.get t k ≠ none := ih
    by_cases h1 : k1 = k
    · simp only [GoMap.get, GoMap.keys, h1, if_true, List.map_cons, List.mem_cons, true_or,
        ne_eq, reduceCtorEq, not_false_eq_true]
    · have h3 : ¬ k = k1 := fun h => h1 h.symm
      simp only [GoMap.get, GoMap.keys, h1, if_false, List.map_cons, List.mem_cons, h3, false_or, ih2]

/-! ## Lemmas on buckets -/

theorem bucket_set (g : Groups) (k k2 : Str) (l : List Value) :
    bucket (g.set k l) k2 = if k = k2 then l else bucket g k2 := by
  unfold bucket
  rw [GoMap.get_set]
  by_cases h : k = k2 <;> simp [h]

theorem bucket_appendEach (items : List Str) (g : Groups) (v : Value) (k : Str) :
    bucket (appendEach g items v) k = bucket g k ++ List.replicate (items.count k) v := by
  induction items generalizing g with
  | nil => simp [appendEach]
  | cons it rest ih =>
    have hstep : appendEach g (it :: rest) v
        = appendEach (g.set it (bucket g it ++ [v])) rest v := rfl
    rw [hstep, ih, bucket_set]
    by_cases h : it = k
    · subst h
      simp [List.count_cons_self, List.replicate_succ]
    · have h2 : k ≠ it := fun e => h e.symm
      simp [h, List.count_cons_of_ne h2]

theorem mem_keys_appendEach (items : List Str) (g : Groups) (v : Value) (k : Str) :
    k ∈ (appendEach g items v).keys ↔ k ∈ g.keys ∨ k ∈ items := by
  induction items generalizing g with
  | nil => simp [appendEach]
  | cons it rest ih =>
    have hstep : appendEach g (it :: rest) v
        = appendEach (g.set it (bucket g it ++ [v])) rest v := rfl
    rw [hstep, ih, GoMap.mem_keys_set]
    simp only [List.mem_cons]
    tauto

theorem nodup_keys_appendEach (items : List Str) (g : Groups) (v : Value)
    (h : g.keys.Nodup) : (appendEach g items v).keys.Nodup := by
  induction items generalizing g with
  | nil => simpa [appendEach] using h
  | cons it rest ih =>
    have hstep : appendEach g (it :: rest) v
        = appendEach (g.set it (bucket g it ++ [v])) rest v := rfl
    rw [hstep]
    exact ih _ (GoMap.nodup_keys_set _ _ _ h)

/-! ## The loop of `generalizedGroupBy` -/

/-- When the extractor fails on no element and the assignment appends each
element `v` to the buckets listed by `ks v`, the loop returns the map obtained
by doing so element by element. -/
theorem groupLoop_appendEach (getValue : Value → Value × Option Error)
    (addEntry : Groups → Value → Value → Exec Groups) (ks : Value → List Str)
    (C : List Value) (g : Groups)
    (h : ∀ v ∈ C, (getValue v).2 = none ∧ ((getValue v).1 = Value.nil → ks v = [])
      ∧ ((getValue v).1 ≠ Value.nil →
          ∀ g1 : Groups, addEntry g1 (getValue v).1 v = .ret (appendEach g1 (ks v) v))) :
    groupLoop getValue addEntry (C.map Slot.val) g
      = .ret (some (C.foldl (fun g1 v => appendEach g1 (ks v) v) g), none) := by
  induction C generalizing g with
  | nil => rfl
  | cons v rest ih =>
    obtain ⟨h1, h2, h3⟩ := h v (List.mem_cons_self v rest)
    have hrest := fun g1 => ih g1 (fun u hu => h u (List.mem_cons_of_mem v hu))
    rcases hgv : getValue v with ⟨value, e⟩
    rw [hgv] at h1 h2 h3
    simp only at h1 h2 h3
    subst h1
    by_cases hn : value = Value.nil
    · simp only [List.map_cons, groupLoop, hgv, hn, ne_eq, not_true_eq_false, if_false,
        List.foldl_cons]
      rw [hrest, h2 hn]
      rfl
    · simp only [List.map_cons, groupLoop, hgv, ne_eq, hn, not_false_eq_true, if_true,
        h3 hn g, List.foldl_cons]
      rw [hrest]

/-- With the extractor `deepGet(v, key)` and an assignment that panics on a
value that is neither nil nor a string, the loop returns only if no element is
a nil pointer and every element has a path that does not resolve or resolves
to a string. -/
theorem groupLoop_ret_imp (deepGet : Value → Str → Value) (K : Str)
    (addEntry : Groups → Value → Value → Exec Groups)
    (hp : ∀ (g : Groups) (value v : Value), value ≠ Value.nil → value.isStr = false →
      ∃ p, addEntry g value v = .panic p)
    (xs : List Slot) (g : Groups) (r : GroupResult)
    (h : groupLoop (fun v => (deepGet v K, none)) addEntry xs g = .ret r) :
    ∃ C : List Value, xs = C.map Slot.val
      ∧ ∀ v ∈ C, deepGet v K = Value.nil ∨ (deepGet v K).isStr = true := by
  induction xs generalizing g with
  | nil => exact ⟨[], rfl, fun v hv => (by cases hv)⟩
  | cons x rest ih =>
    cases x with
    | nilPtr => simp [groupLoop] at h
    | val a =>
      by_cases hn : deepGet a K = Value.nil
      · simp only [groupLoop, hn, ne_eq, not_true_eq_false, if_false] at h
        obtain ⟨C, hC, hall⟩ := ih g h
        refine ⟨a :: C, by rw [hC]; rfl, ?_⟩
        intro v hv
        rcases List.mem_cons.mp hv with rfl | hv
        · exact Or.inl hn
        · exact hall v hv
      · simp only [groupLoop, ne_eq, hn, not_false_eq_true, if_true] at h
        cases ha : addEntry g (deepGet a K) a with
        | panic p => simp [ha] at h
        | ret g1 =>
          simp only [ha] at h
          have hs : (deepGet a K).isStr = true := by
            by_contra hs
            obtain ⟨p, hpp⟩ := hp g (deepGet a K) a hn (by simpa using hs)
            rw [hpp] at ha
            cases ha
          obtain ⟨C, hC, hall⟩ := ih g1 h
          refine ⟨a :: C, by rw [hC]; rfl, ?_⟩
          intro v hv
          rcases List.mem_cons.mp hv with rfl | hv
          · exact Or.inr hs
          · exact hall v hv

theorem bucket_foldl_appendEach (ks : Value → List Str) (C : List Value) (g : Groups)
    (k : Str) :
    bucket (C.foldl (fun g1 v => appendEach g1 (ks v) v) g) k
      = bucket g k ++ C.flatMap (fun v => List.replicate ((ks v).count k) v) := by
  induction C generalizing g with
  | nil => simp
  | cons v rest ih =>
    simp only [List.foldl_cons, List.flatMap_cons]
    rw [ih, bucket_appendEach, List.append_assoc]

theorem mem_keys_foldl_appendEach (ks : Value → List Str) (C : List Value) (g : Groups)
    (k : Str) :
    k ∈ (C.foldl (fun g1 v => appendEach g1 (ks v) v) g).keys
      ↔ k ∈ g.keys ∨ ∃ v ∈ C, k ∈ ks v := by
  induction C generalizing g with
  | nil => simp
  | cons v rest ih =>
    simp only [List.foldl_cons]
    rw [ih, mem_keys_appendEach]
    simp only [List.mem_cons, exists_eq_or_imp]
    tauto

theorem nodup_keys_foldl_appendEach (ks : Value → List Str) (C : List Value) (g : Groups)
    (h : g.keys.Nodup) : (C.foldl (fun g1 v => appendEach g1 (ks v) v) g).keys.Nodup := by
  induction C generalizing g with
  | nil => simpa using h
  | cons v rest ih =>
    simp only [List.foldl_cons]
    exact ih _ (nodup_keys_appendEach _ _ _ h)

theorem flatMap_replicate_le_one (C : List Value) (n : Value → Nat) (p : Value → Bool)
    (h : ∀ v ∈ C, n v = if p v then 1 else 0) :
    C.flatMap (fun v => List.replicate (n v) v) = C.filter p := by
  induction C with
  | nil => rfl
  | cons v rest ih =>
    have hv := h v (List.mem_cons_self v rest)
    have ih2 := ih (fun u hu => h u (List.mem_cons_of_mem v hu))
    simp only [List.flatMap_cons, ih2, hv]
    by_cases hp : p v = true
    · simp [hp, List.filter_cons]
    · simp [hp, List.filter_cons]

theorem sum_indicator_keys (ks : List Str) (hnd : ks.Nodup) (x : Value) :
    (ks.map (fun k => if x = Value.str k then 1 else 0)).sum
      = if (∃ s, s ∈ ks ∧ x = Value.str s) then 1 else 0 := by
  induction ks with
  | nil => simp
  | cons k rest ih =>
    have hk : k ∉ rest := (List.nodup_cons.mp hnd).1
    have ih2 := ih (List.nodup_cons.mp hnd).2
    simp only [List.map_cons, List.sum_cons, ih2]
    by_cases hx : x = Value.str k
    · subst hx
      have hno : ¬ ∃ s, s ∈ rest ∧ Value.str k = Value.str s := by
        rintro ⟨s, hs, he⟩
        have : k = s := by injection he
        exact hk (this ▸ hs)
      have hyes : ∃ s, s ∈ k :: rest ∧ Value.str k = Value.str s :=
        ⟨k, List.mem_cons_self k rest, rfl⟩
      simp [hno, hk]
    · by_cases hr : ∃ s, s ∈ rest ∧ x = Value.str s
      · have hyes : ∃ s, s ∈ k :: rest ∧ x = Value.str s := by
          obtain ⟨s, hs, he⟩ := hr
          exact ⟨s, List.mem_cons_of_mem k hs, he⟩
        simp [hx, hr, hyes]
      · have hno : ¬ ∃ s, s ∈ k :: rest ∧ x = Value.str s := by
          rintro ⟨s, hs, he⟩
          rcases List.mem_cons.mp hs with h1 | h1
          · exact hx (h1 ▸ he)
          · exact hr ⟨s, h1, he⟩
        simp [hx, hr, hno]

theorem sum_bucket_lengths (ks : List Str) (hnd : ks.Nodup) (f : Value → Value)
    (C : List Value) (hmem : ∀ v ∈ C, ∀ s, f v = Value.str s → s ∈ ks) :
    (ks.map (fun k => (C.filter (fun v => decide (f v = Value.str k))).length)).sum
      = (C.filter (fun v => (f v).isStr)).length := by
  induction C with
  | nil => simp
  | cons v rest ih =>
    have ih2 := ih (fun u hu => hmem u (List.mem_cons_of_mem v hu))
    have hv := hmem v (List.mem_cons_self v rest)
    have hsplit : ∀ k : Str,
        ((v :: rest).filter (fun v => decide (f v = Value.str k))).length
          = (if f v = Value.str k then 1 else 0)
            + (rest.filter (fun v => decide (f v = Value.str k))).length := by
      intro k
      by_cases hk : f v = Value.str k
      · simp [List.filter_cons, hk, Nat.add_comm]
      · simp [List.filter_cons, hk]
    simp only [hsplit, List.sum_map_add, ih2, sum_indicator_keys ks hnd (f v)]
    by_cases hs : (f v).isStr = true
    · have hex : ∃ s, s ∈ ks ∧ f v = Value.str s := by
        cases hfv : f v with
        | str s => exact ⟨s, hv s hfv, rfl⟩
        | nil => rw [hfv] at hs; cases hs
        | container c => rw [hfv] at hs; cases hs
        | other t => rw [hfv] at hs; cases hs
      simp [List.filter_cons, hs, hex, Nat.add_comm]
    · have hex : ¬ ∃ s, s ∈ ks ∧ f v = Value.str s := by
        rintro ⟨s, _, he⟩
        rw [he] at hs
        exact hs rfl
      simp [List.filter_cons, hs, hex]

theorem Value.isStr_iff (x : Value) : x.isStr = true ↔ ∃ s, x = Value.str s := by
  cases x with
  | str s => exact ⟨fun _ => ⟨s, rfl⟩, fun _ => rfl⟩
  | nil => exact ⟨fun h => (by cases h), fun ⟨s, h⟩ => (by cases h)⟩
  | container c => exact ⟨fun h => (by cases h), fun ⟨s, h⟩ => (by cases h)⟩
  | other t => exact ⟨fun h => (by cases h), fun ⟨s, h⟩ => (by cases h)⟩

/-! ## Grouping by a path -/

/-- C1, the claim as stated fails on a collection with a nil pointer element:
in the slice of a pointer to `"a"` and a nil pointer, grouped by the empty
path, the first element resolves to the string `"a"` and the second resolves to
nothing, yet `groupBy` returns no map in which the first element would lie in
bucket `a`: it panics when it reads the nil pointer element. -/
theorem groupBy_buckets_counterexample :
    groupBy (fun v _ => v) (.seq [.val (.str "a".toList), .nilPtr]) []
      = .panic .zeroValueInterface
    ∧ ¬ ∃ groups : Groups,
        groupBy (fun v _ => v) (.seq [.val (.str "a".toList), .nilPtr]) []
          = .ret (some groups, none) := by
  constructor
  · decide
  · rintro ⟨groups, h⟩
    have h2 : groupBy (fun v _ => v) (.seq [.val (.str "a".toList), .nilPtr]) []
        = .panic .zeroValueInterface := by decide
    rw [h2] at h
    cases h

/-- C1, amended: on a collection without nil pointer elements each of whose
elements has a path that does not resolve or resolves to a string, `groupBy`
returns a map without error; the bucket of every key `k` is exactly the sublist
of the collection, in order, of the elements whose path resolves to `k`; the
keys are pairwise distinct and are exactly the strings some element resolves
to; and the buckets together hold as many element occurrences as there are
elements whose path resolves to a string, so an occurrence lies in the bucket
of its resolved string and in no other, and an occurrence that does not resolve
lies in none. -/
theorem groupBy_buckets (deepGet : Value → Str → Value) (C : List Value) (K : Str)
    (hC0 : ∀ v ∈ C, deepGet v K = Value.nil ∨ (deepGet v K).isStr = true) :
    ∃ groups : Groups,
      groupBy deepGet (.ofValues C) K = .ret (some groups, none)
      ∧ groups.keys.Nodup
      ∧ (∀ k, k ∈ groups.keys ↔ ∃ v ∈ C, deepGet v K = Value.str k)
      ∧ (∀ k, bucket groups k = C.filter (fun v => decide (deepGet v K = Value.str k)))
      ∧ (groups.keys.map (fun k => (bucket groups k).length)).sum
          = (C.filter (fun v => (deepGet v K).isStr)).length := by
  have hC : ∀ v ∈ C, deepGet v K = Value.nil ∨ ∃ s, deepGet v K = Value.str s :=
    fun v hv => (hC0 v hv).imp id (Value.isStr_iff _).mp
  let ks : Value → List Str := fun v =>
    match deepGet v K with
    | .str s => [s]
    | _ => []
  have hks : ∀ v s, deepGet v K = Value.str s → ks v = [s] := by
    intro v s h
    simp only [ks, h]
  have hksn : ∀ v, deepGet v K = Value.nil → ks v = [] := by
    intro v h
    simp only [ks, h]
  have hrun : groupBy deepGet (.ofValues C) K
      = .ret (some (C.foldl (fun g1 v => appendEach g1 (ks v) v) []), none) := by
    show groupLoop (fun v => (deepGet v K, none)) addSingle (C.map Slot.val) [] = _
    apply groupLoop_appendEach
    intro v hv
    refine ⟨rfl, hksn v, ?_⟩
    intro hne g1
    rcases hC v hv with h | ⟨s, h⟩
    · exact absurd h hne
    · simp only [h, hks v s h]
      rfl
  have hkeys : ∀ k, k ∈ (C.foldl (fun g1 v => appendEach g1 (ks v) v) ([] : Groups)).keys
      ↔ ∃ v ∈ C, deepGet v K = Value.str k := by
    intro k
    rw [mem_keys_foldl_appendEach]
    constructor
    · rintro (h | ⟨v, hv, hk⟩)
      · cases h
      · rcases hC v hv with h | ⟨s, h⟩
        · rw [hksn v h] at hk
          cases hk
        · rw [hks v s h, List.mem_singleton] at hk
          exact ⟨v, hv, hk ▸ h⟩
    · rintro ⟨v, hv, h⟩
      exact Or.inr ⟨v, hv, by rw [hks v k h]; exact List.mem_singleton_self k⟩
  have hbucket : ∀ k, bucket (C.foldl (fun g1 v => appendEach g1 (ks v) v) ([] : Groups)) k
      = C.filter (fun v => decide (deepGet v K = Value.str k)) := by
    intro k
    rw [bucket_foldl_appendEach]
    show [] ++ _ = _
    rw [List.nil_append]
    apply flatMap_replicate_le_one
    intro v hv
    rcases hC v hv with h | ⟨s, h⟩
    · simp [hksn v h, h]
    · rw [hks v s h, h]
      by_cases hsk : s = k
      · simp [hsk]
      · have : ¬ Value.str s = Value.str k := fun e => hsk (by injection e)
        simp [hsk, this, List.count_singleton]
  have hnd := nodup_keys_foldl_appendEach ks C ([] : Groups) List.nodup_nil
  refine ⟨_, hrun, hnd, hkeys, hbucket, ?_⟩
  simp only [hbucket]
  exact sum_bucket_lengths _ hnd (fun v => deepGet v K) C
    (fun v hv s hs => (hkeys s).mpr ⟨v, hv, hs⟩)

/-- Witness of `groupBy_buckets`: three elements, grouped by the empty path,
which resolves to the element itself. -/
theorem groupBy_buckets_witness :
    ∃ groups : Groups,
      groupBy (fun v _ => v)
        (.ofValues [.str "a".toList, .nil, .str "b".toList, .str "a".toList]) []
        = .ret (some groups, none)
      ∧ bucket groups "a".toList = [.str "a".toList, .str "a".toList]
      ∧ bucket groups "b".toList = [.str "b".toList]
      ∧ bucket groups "c".toList = [] := by
  obtain ⟨groups, h1, _, _, h2, _⟩ := groupBy_buckets (fun v _ => v)
    [.str "a".toList, .nil, .str "b".toList, .str "a".toList] [] (by decide)
  refine ⟨groups, h1, ?_, ?_, ?_⟩
  · rw [h2]; decide
  · rw [h2]; decide
  · rw [h2]; decide

/-- C2: `groupByMulti` returns a map without error on a collection without
nil pointer elements each of whose elements has a path that does not resolve or
resolves to a string, and it returns only on such a collection; whenever it
returns, the bucket of every key `s` is the concatenation, in collection order,
over the elements `e` whose path resolves to a string `v`, of as many copies of
`e` as `s` occurs in `Split(v, sep)`; nothing is trimmed or deduplicated. -/
theorem groupByMulti_buckets (deepGet : Value → Str → Value) (K sep : Str) :
    (∀ C : List Value,
      (∀ v ∈ C, deepGet v K = Value.nil ∨ (deepGet v K).isStr = true) →
      ∃ groups : Groups,
        groupByMulti deepGet (.ofValues C) K sep = .ret (some groups, none))
    ∧ ∀ (xs : List Slot) (r : GroupResult),
        groupByMulti deepGet (.seq xs) K sep = .ret r →
        ∃ (C : List Value) (groups : Groups),
          xs = C.map Slot.val
          ∧ (∀ v ∈ C, deepGet v K = Value.nil ∨ (deepGet v K).isStr = true)
          ∧ r = (some groups, none)
          ∧ ∀ s, bucket groups s = C.flatMap (fun e =>
              match deepGet e K with
              | .str v => List.replicate ((split v sep).count s) e
              | _ => []) := by
  let ks : Value → List Str := fun v =>
    match deepGet v K with
    | .str s => split s sep
    | _ => []
  have hrun : ∀ C : List Value,
      (∀ v ∈ C, deepGet v K = Value.nil ∨ (deepGet v K).isStr = true) →
      groupByMulti deepGet (.ofValues C) K sep
        = .ret (some (C.foldl (fun g1 v => appendEach g1 (ks v) v) []), none) := by
    intro C hC
    show groupLoop (fun v => (deepGet v K, none)) _ (C.map Slot.val) [] = _
    apply groupLoop_appendEach
    intro v hv
    refine ⟨rfl, ?_, ?_⟩
    · intro h
      simp only at h
      simp only [ks, h]
    · intro hne g1
      rcases hC v hv with h | h
      · exact absurd h hne
      · obtain ⟨s, hs⟩ := (Value.isStr_iff _).mp h
        simp only [hs, ks]
  refine ⟨fun C hC => ⟨_, hrun C hC⟩, ?_⟩
  intro xs r hr
  obtain ⟨C, hxs, hC⟩ : ∃ C : List Value, xs = C.map Slot.val
      ∧ ∀ v ∈ C, deepGet v K = Value.nil ∨ (deepGet v K).isStr = true := by
    refine groupLoop_ret_imp deepGet K _ ?_ xs [] r hr
    intro g value v _ hs
    cases value with
    | str s => cases hs
    | nil => exact ⟨_, rfl⟩
    | container c => exact ⟨_, rfl⟩
    | other t => exact ⟨_, rfl⟩
  subst hxs
  have hr2 := hrun C hC
  rw [hr] at hr2
  injection hr2 with hr2
  refine ⟨C, _, rfl, hC, hr2, ?_⟩
  intro s
  rw [bucket_foldl_appendEach]
  show [] ++ _ = _
  rw [List.nil_append]
  congr 1
  funext e
  cases h : deepGet e K <;> simp [ks, h]

/-- Witness of `groupByMulti_buckets`: a single element whose value is
`"a,b,a"`, split at `","`, lies twice in bucket `"a"` and once in bucket `"b"`. -/
theorem groupByMulti_buckets_witness :
    ∃ groups : Groups,
      groupByMulti (fun v _ => v) (.seq [.val (.str "a,b,a".toList)]) [] ",".toList
        = .ret (some groups, none)
      ∧ bucket groups "a".toList = [.str "a,b,a".toList, .str "a,b,a".toList]
      ∧ bucket groups "b".toList = [.str "a,b,a".toList]
      ∧ bucket groups "a,b,a".toList = [] := by
  obtain ⟨hret, hbuckets⟩ := groupByMulti_buckets (fun v _ => v) [] ",".toList
  obtain ⟨groups0, h0⟩ := hret [.str "a,b,a".toList] (by decide)
  obtain ⟨C, groups, hC, _, h1, h2⟩ := hbuckets _ _ h0
  have hC2 : C = [.str "a,b,a".toList] := by
    cases C with
    | nil => cases hC
    | cons c t =>
      cases t with
      | nil =>
        simp only [List.map_cons, List.map_nil, List.cons.injEq, Slot.val.injEq,
          and_true] at hC
        rw [← hC]
      | cons d t2 => simp at hC
  subst hC2
  injection h1 with h1 _
  injection h1 with h1
  subst h1
  refine ⟨groups0, h0, ?_, ?_, ?_⟩
  · rw [h2]; decide
  · rw [h2]; decide
  · rw [h2]; decide

/-! ## Lemmas on `strings.Index` and `strings.Split` -/

theorem index_some_spec (sep : Str) (s : Str) (m : Nat) (h : index s sep = some m) :
    sep <+: s.drop m ∧ ∀ i, i < m → ¬ sep <+: s.drop i := by
  induction s generalizing m with
  | nil =>
    by_cases hs : sep = []
    · simp only [index, hs, if_true, Option.some.injEq] at h
      subst h
      subst hs
      exact ⟨List.nil_prefix, fun i hi => absurd hi (Nat.not_lt_zero i)⟩
    · simp [index, hs] at h
  | cons c t ih =>
    by_cases hp : sep.isPrefixOf (c :: t) = true
    · simp only [index, hp, if_true, Option.some.injEq] at h
      subst h
      exact ⟨List.isPrefixOf_iff_prefix.mp hp, fun i hi => absurd hi (Nat.not_lt_zero i)⟩
    · simp only [index, hp, Bool.false_eq_true, if_false] at h
      obtain ⟨m1, hm1, rfl⟩ : ∃ m1, index t sep = some m1 ∧ m1 + 1 = m := by
        cases hi : index t sep with
        | none => rw [hi] at h; cases h
        | some m1 =>
          rw [hi] at h
          exact ⟨m1, rfl, Option.some.inj h⟩
      obtain ⟨h1, h2⟩ := ih m1 hm1
      refine ⟨by simpa using h1, ?_⟩
      intro i hi
      cases i with
      | zero =>
        intro hpre
        exact hp (List.isPrefixOf_iff_prefix.mpr (by simpa using hpre))
      | succ j =>
        have := h2 j (Nat.lt_of_succ_lt_succ hi)
        simpa using this

theorem index_none_spec (sep : Str) (s : Str) (h : index s sep = none) :
    sep ≠ [] ∧ ∀ i, ¬ sep <+: s.drop i := by
  induction s with
  | nil =>
    by_cases hs : sep = []
    · simp [index, hs] at h
    · refine ⟨hs, fun i hpre => ?_⟩
      simp only [List.drop_nil] at hpre
      exact hs (List.prefix_nil.mp hpre)
  | cons c t ih =>
    by_cases hp : sep.isPrefixOf (c :: t) = true
    · simp [index, hp] at h
    · simp only [index, hp, Bool.false_eq_true, if_false] at h
      have hnone : index t sep = none := by
        cases hi : index t sep with
        | none => rfl
        | some m1 => rw [hi] at h; cases h
      obtain ⟨h1, h2⟩ := ih hnone
      refine ⟨h1, fun i => ?_⟩
      cases i with
      | zero =>
        intro hpre
        exact hp (List.isPrefixOf_iff_prefix.mpr (by simpa using hpre))
      | succ j => simpa using h2 j

theorem index_some_bound (sep : Str) (s : Str) (m : Nat) (h : index s sep = some m) :
    m + sep.length ≤ s.length := by
  induction s generalizing m with
  | nil =>
    by_cases hs : sep = []
    · simp only [index, hs, if_true, Option.some.injEq] at h
      subst h
      subst hs
      simp
    · simp [index, hs] at h
  | cons c t ih =>
    by_cases hp : sep.isPrefixOf (c :: t) = true
    · simp only [index, hp, if_true, Option.some.injEq] at h
      subst h
      have := (List.isPrefixOf_iff_prefix.mp hp).length_le
      simpa using this
    · simp only [index, hp, Bool.false_eq_true, if_false] at h
      obtain ⟨m1, hm1, rfl⟩ : ∃ m1, index t sep = some m1 ∧ m1 + 1 = m := by
        cases hi : index t sep with
        | none => rw [hi] at h; cases h
        | some m1 =>
          rw [hi] at h
          exact ⟨m1, rfl, Option.some.inj h⟩
      have := ih m1 hm1
      simp only [List.length_cons]
      omega

theorem splitLoop_ne_nil (sep : Str) (n : Nat) (s : Str) : splitLoop sep n s ≠ [] := by
  cases n with
  | zero => simp [splitLoop]
  | succ k =>
    cases h : index s sep with
    | none => simp [splitLoop, h]
    | some m => simp [splitLoop, h]

theorem split_ne_nil (s sep : Str) (hne : sep ≠ []) : split s sep ≠ [] := by
  simp only [split, hne, if_false]
  exact splitLoop_ne_nil sep _ s

theorem split_of_index_none (s sep : Str) (h : index s sep = none) : split s sep = [s] := by
  have hne := (index_none_spec sep s h).1
  simp only [split, hne, if_false]
  cases hl : s.length with
  | zero => rfl
  | succ k => simp [splitLoop, h]

theorem splitLoop_head (sep : Str) (hne : sep ≠ []) (n : Nat) (r : Str)
    (hn : r.length ≤ n) :
    ∃ tl, splitLoop sep n r
      = (match index r sep with
         | none => r
         | some m2 => r.take m2) :: tl := by
  cases n with
  | zero =>
    have hr : r = [] := List.length_eq_zero.mp (Nat.le_zero.mp hn)
    subst hr
    exact ⟨[], by simp [splitLoop, index, hne]⟩
  | succ k =>
    cases h : index r sep with
    | none => exact ⟨[], by simp [splitLoop, h]⟩
    | some m => exact ⟨splitLoop sep k (r.drop (m + sep.length)), by simp only [splitLoop, h]⟩

theorem split_of_index_some (s sep : Str) (hne : sep ≠ []) (m : Nat)
    (h : index s sep = some m) :
    ∃ tl, split s sep
      = s.take m
        :: (match index (s.drop (m + sep.length)) sep with
            | none => s.drop (m + sep.length)
            | some m2 => (s.drop (m + sep.length)).take m2) :: tl := by
  have hb := index_some_bound sep s m h
  have hpos : 0 < sep.length := List.length_pos.mpr hne
  obtain ⟨k, hk⟩ : ∃ k, s.length = k + 1 := ⟨s.length - 1, by omega⟩
  have hlen : (s.drop (m + sep.length)).length ≤ k := by
    rw [List.length_drop]
    omega
  obtain ⟨tl, htl⟩ := splitLoop_head sep hne k (s.drop (m + sep.length)) hlen
  refine ⟨tl, ?_⟩
  simp only [split, hne, if_false, hk, splitLoop, h, htl]

/-! ## Lemmas on `splitKeyValuePairs` -/

theorem kvpEntry_of_contains (item kvpSep : Str) (defaultKey : List Str)
    (hne : kvpSep ≠ []) (m : Nat) (h : index item kvpSep = some m) :
    kvpEntry item kvpSep defaultKey
      = .ret (item.take m,
          match index (item.drop (m + kvpSep.length)) kvpSep with
          | none => item.drop (m + kvpSep.length)
          | some m2 => (item.drop (m + kvpSep.length)).take m2) := by
  obtain ⟨tl, htl⟩ := split_of_index_some item kvpSep hne m h
  have hc : contains item kvpSep = true := by simp [contains, h]
  simp only [kvpEntry, hc, if_true, htl]

theorem kvpEntry_of_not_contains (item kvpSep : Str) (defaultKey : List Str)
    (h : contains item kvpSep = false) :
    kvpEntry item kvpSep defaultKey
      = match defaultKey with
        | [] => .ret (item, item)
        | d :: _ => if d = [] then .ret (item, item) else .ret (d, item) := by
  simp only [kvpEntry, h, Bool.false_eq_true, if_false]

theorem kvpEntry_total (item kvpSep : Str) (defaultKey : List Str) (hne : kvpSep ≠ []) :
    ∃ kv, kvpEntry item kvpSep defaultKey = .ret kv := by
  cases h : index item kvpSep with
  | some m => exact ⟨_, kvpEntry_of_contains item kvpSep defaultKey hne m h⟩
  | none =>
    have hc : contains item kvpSep = false := by simp [contains, h]
    rw [kvpEntry_of_not_contains item kvpSep defaultKey hc]
    cases defaultKey with
    | nil => exact ⟨_, rfl⟩
    | cons d t =>
      by_cases hd : d = []
      · exact ⟨(item, item), by simp only [hd, if_true]⟩
      · exact ⟨(d, item), by simp only [hd, if_false]⟩

theorem kvpEntry_forall₂ (kvpSep : Str) (defaultKey : List Str) (hne : kvpSep ≠ [])
    (items : List Str) :
    ∃ kvs : List (Str × Str),
      List.Forall₂ (fun item kv => kvpEntry item kvpSep defaultKey = .ret kv) items kvs := by
  induction items with
  | nil => exact ⟨[], List.Forall₂.nil⟩
  | cons it rest ih =>
    obtain ⟨kvs, hkvs⟩ := ih
    obtain ⟨kv, hkv⟩ := kvpEntry_total it kvpSep defaultKey hne
    exact ⟨kv :: kvs, List.Forall₂.cons hkv hkvs⟩

theorem kvpLoop_eq_foldl (kvpSep : Str) (defaultKey : List Str) (items : List Str)
    (kvs : List (Str × Str))
    (h : List.Forall₂ (fun item kv => kvpEntry item kvpSep defaultKey = .ret kv) items kvs)
    (output : GoMap Str) :
    kvpLoop kvpSep defaultKey items output
      = .ret (kvs.foldl (fun o kv => o.set kv.1 kv.2) output) := by
  induction h generalizing output with
  | nil => rfl
  | cons hkv _ ih =>
    simp only [kvpLoop, hkv, List.foldl_cons]
    exact ih _

theorem get_foldl_set (kvs : List (Str × Str)) (output : GoMap Str) (k : Str) :
    (kvs.foldl (fun o kv => o.set kv.1 kv.2) output).get k
      = match kvs.reverse.find? (fun kv => decide (kv.1 = k)) with
        | some kv => some kv.2
        | none => output.get k := by
  induction kvs generalizing output with
  | nil => rfl
  | cons kv rest ih =>
    simp only [List.foldl_cons, List.reverse_cons, List.find?_append]
    rw [ih]
    cases hf : rest.reverse.find? (fun kv => decide (kv.1 = k)) with
    | some kv2 => simp
    | none =>
      simp only [Option.none_or, GoMap.get_set]
      by_cases hk : kv.1 = k
      · simp [List.find?, hk]
      · simp [List.find?, hk]

theorem mem_keys_foldl_set (kvs : List (Str × Str)) (output : GoMap Str) (k : Str) :
    k ∈ (kvs.foldl (fun o kv => o.set kv.1 kv.2) output).keys
      ↔ k ∈ output.keys ∨ k ∈ kvs.map Prod.fst := by
  induction kvs generalizing output with
  | nil => simp
  | cons kv rest ih =>
    simp only [List.foldl_cons, List.map_cons, List.mem_cons]
    rw [ih, GoMap.mem_keys_set]
    tauto

theorem nodup_keys_foldl_set (kvs : List (Str × Str)) (output : GoMap Str)
    (h : output.keys.Nodup) :
    (kvs.foldl (fun o kv => o.set kv.1 kv.2) output).keys.Nodup := by
  induction kvs generalizing output with
  | nil => simpa using h
  | cons kv rest ih =>
    simp only [List.foldl_cons]
    exact ih _ (GoMap.nodup_keys_set _ _ _ h)

/-- C3: for a non-empty `kvpSep`, `splitKeyValuePairs` returns a map (it does
not panic); every list item of `Split(input, listSep)` derives a key and a
value; the keys of the map are pairwise distinct and are exactly the keys
derived from the items; and the value stored under a key is the value derived
from the last item, in list order, that derives this key. -/
theorem splitKeyValuePairs_last_wins (input listSep kvpSep : Str)
    (defaultKey : List Str) (hne : kvpSep ≠ []) :
    ∃ (kvs : List (Str × Str)) (output : GoMap Str),
      List.Forall₂ (fun item kv => kvpEntry item kvpSep defaultKey = .ret kv)
        (split input listSep) kvs
      ∧ splitKeyValuePairs input listSep kvpSep defaultKey = .ret output
      ∧ output.keys.Nodup
      ∧ (∀ k, k ∈ output.keys ↔ k ∈ kvs.map Prod.fst)
      ∧ (∀ k, output.get k
            = (kvs.reverse.find? (fun kv => decide (kv.1 = k))).map Prod.snd) := by
  obtain ⟨kvs, hkvs⟩ := kvpEntry_forall₂ kvpSep defaultKey hne (split input listSep)
  refine ⟨kvs, _, hkvs, kvpLoop_eq_foldl kvpSep defaultKey _ kvs hkvs [],
    nodup_keys_foldl_set kvs [] List.nodup_nil, ?_, ?_⟩
  · intro k
    rw [mem_keys_foldl_set]
    constructor
    · rintro (h | h)
      · cases h
      · exact h
    · exact Or.inr
  · intro k
    rw [get_foldl_set]
    cases kvs.reverse.find? (fun kv => decide (kv.1 = k)) <;> rfl

/-- Witness of `splitKeyValuePairs_last_wins`: in `"a=1,b=2,a=3"` the key `a`
occurs twice and keeps the value of its last occurrence. -/
theorem splitKeyValuePairs_last_wins_witness :
    ∃ (kvs : List (Str × Str)) (output : GoMap Str),
      kvs = [("a".toList, "1".toList), ("b".toList, "2".toList), ("a".toList, "3".toList)]
      ∧ splitKeyValuePairs "a=1,b=2,a=3".toList ",".toList "=".toList [] = .ret output
      ∧ output.get "a".toList = some "3".toList
      ∧ output.get "b".toList = some "2".toList
      ∧ output.get "c".toList = none := by
  obtain ⟨kvs, output, h1, h2, _, _, h3⟩ :=
    splitKeyValuePairs_last_wins "a=1,b=2,a=3".toList ",".toList "=".toList []
      (by decide)
  have hs : split "a=1,b=2,a=3".toList ",".toList
      = ["a=1".toList, "b=2".toList, "a=3".toList] := by decide
  rw [hs] at h1
  have hk : kvs = [("a".toList, "1".toList), ("b".toList, "2".toList),
      ("a".toList, "3".toList)] := by
    cases h1 with
    | cons ha h1 =>
      cases h1 with
      | cons hb h1 =>
        cases h1 with
        | cons hc h1 =>
          cases h1
          have ea : kvpEntry "a=1".toList "=".toList [] = .ret ("a".toList, "1".toList) := by
            decide
          have eb : kvpEntry "b=2".toList "=".toList [] = .ret ("b".toList, "2".toList) := by
            decide
          have ec : kvpEntry "a=3".toList "=".toList [] = .ret ("a".toList, "3".toList) := by
            decide
          rw [ea] at ha
          rw [eb] at hb
          rw [ec] at hc
          injection ha with ha
          injection hb with hb
          injection hc with hc
          subst ha hb hc
          rfl
  subst hk
  refine ⟨_, output, rfl, h2, ?_, ?_, ?_⟩
  · rw [h3]; decide
  · rw [h3]; decide
  · rw [h3]; decide

theorem kvpLoop_map (kvpSep : Str) (defaultKey : List Str) (f : Str → Str × Str)
    (items : List Str) (h : ∀ it ∈ items, kvpEntry it kvpSep defaultKey = .ret (f it))
    (output : GoMap Str) :
    kvpLoop kvpSep defaultKey items output
      = .ret ((items.map f).foldl (fun o kv => o.set kv.1 kv.2) output) := by
  induction items generalizing output with
  | nil => rfl
  | cons it rest ih =>
    simp only [kvpLoop, h it (List.mem_cons_self it rest), List.map_cons, List.foldl_cons]
    exact ih (fun u hu => h u (List.mem_cons_of_mem it hu)) _

theorem foldl_set_same_key (d : Str) (items : List Str) (x : Str) :
    (items.map (fun it => (d, it))).foldl (fun o kv => GoMap.set o kv.1 kv.2) [(d, x)]
      = [(d, items.getLast?.getD x)] := by
  induction items generalizing x with
  | nil => rfl
  | cons it rest ih =>
    simp only [List.map_cons, List.foldl_cons, GoMap.set, if_true]
    rw [ih it, List.getLast?_cons]
    rfl

/-- C4: with a non-empty `listSep`, a non-empty `kvpSep` and a non-empty
default key `d`, when no item of `Split(input, listSep)` contains `kvpSep`, the
map returned by `splitKeyValuePairs` has the single entry `d`, bound to the
last item of the list. -/
theorem splitKeyValuePairs_default_key (input listSep kvpSep d : Str)
    (more : List Str) (hl : listSep ≠ []) (hk : kvpSep ≠ []) (hd : d ≠ [])
    (hno : ∀ item ∈ split input listSep, contains item kvpSep = false) :
    ∃ last, (split input listSep).getLast? = some last
      ∧ splitKeyValuePairs input listSep kvpSep (d :: more) = .ret [(d, last)] := by
  -- `hk` follows from `hl` and `hno`; it is kept because the claim states it
  have _ := hk
  have hrun := kvpLoop_map kvpSep (d :: more) (fun it => (d, it)) (split input listSep)
    (fun it hit => by
      rw [kvpEntry_of_not_contains it kvpSep (d :: more) (hno it hit)]
      simp only [hd, if_false]) []
  cases hs : split input listSep with
  | nil => exact absurd hs (split_ne_nil input listSep hl)
  | cons it rest =>
    refine ⟨rest.getLast?.getD it, List.getLast?_cons, ?_⟩
    rw [splitKeyValuePairs, hrun, hs]
    simp only [List.map_cons, List.foldl_cons, GoMap.set]
    rw [foldl_set_same_key]

/-- Witness of `splitKeyValuePairs_default_key`:
`splitKeyValuePairs("x,y", ",", "=", "d")` is the map with `d` bound to `y`. -/
theorem splitKeyValuePairs_default_key_witness :
    splitKeyValuePairs "x,y".toList ",".toList "=".toList ["d".toList]
      = .ret [("d".toList, "y".toList)] := by
  obtain ⟨last, h1, h2⟩ := splitKeyValuePairs_default_key "x,y".toList ",".toList
    "=".toList "d".toList [] (by decide) (by decide) (by decide) (by decide)
  have h3 : (split "x,y".toList ",".toList).getLast? = some "y".toList := by decide
  rw [h3] at h1
  injection h1 with h1
  rw [h2, h1]

theorem index_some_decompose (sep s : Str) (m : Nat) (h : index s sep = some m) :
    s = s.take m ++ sep ++ s.drop (m + sep.length) ∧ (s.take m).length = m := by
  have hb := index_some_bound sep s m h
  have hp := (index_some_spec sep s m h).1
  have h1 : sep ++ (s.drop m).drop sep.length = s.drop m := List.prefix_iff_eq_append.mp hp
  rw [List.drop_drop] at h1
  constructor
  · rw [List.append_assoc, h1, List.take_append_drop]
  · rw [List.length_take]
    omega

/-- C5: an item that contains the non-empty `kvpSep` derives, whatever the
default key, the key that is the text before the first occurrence of `kvpSep`
and the value that is the text between that occurrence and the next one after
it, or the whole remaining text when there is no next one; what follows the
second occurrence is ignored.  And `splitKeyValuePairs("a=1,b=2", ",", "=")`
is the map with `a` bound to `1` and `b` bound to `2`. -/
theorem kvpEntry_first_two_segments (item kvpSep : Str) (defaultKey : List Str)
    (hne : kvpSep ≠ []) (hc : contains item kvpSep = true) :
    (∃ key value rest : Str,
      kvpEntry item kvpSep defaultKey = .ret (key, value)
      ∧ item = key ++ kvpSep ++ rest
      ∧ (∀ i, i < key.length → ¬ kvpSep <+: item.drop i)
      ∧ (((∀ i, ¬ kvpSep <+: rest.drop i) ∧ value = rest)
          ∨ ∃ tail : Str, rest = value ++ kvpSep ++ tail
              ∧ ∀ i, i < value.length → ¬ kvpSep <+: rest.drop i))
    ∧ splitKeyValuePairs "a=1,b=2".toList ",".toList "=".toList []
        = .ret [("a".toList, "1".toList), ("b".toList, "2".toList)] := by
  refine ⟨?_, by decide⟩
  cases h : index item kvpSep with
  | none => simp [contains, h] at hc
  | some m =>
    obtain ⟨hdec, hlen⟩ := index_some_decompose kvpSep item m h
    have hfirst := (index_some_spec kvpSep item m h).2
    have hrun := kvpEntry_of_contains item kvpSep defaultKey hne m h
    cases h2 : index (item.drop (m + kvpSep.length)) kvpSep with
    | none =>
      rw [h2] at hrun
      refine ⟨_, _, item.drop (m + kvpSep.length), hrun, hdec, ?_, Or.inl ⟨?_, rfl⟩⟩
      · intro i hi
        exact hfirst i (hlen ▸ hi)
      · exact (index_none_spec kvpSep _ h2).2
    | some m2 =>
      rw [h2] at hrun
      obtain ⟨hdec2, hlen2⟩ := index_some_decompose kvpSep _ m2 h2
      have hfirst2 := (index_some_spec kvpSep _ m2 h2).2
      refine ⟨_, _, item.drop (m + kvpSep.length), hrun, hdec, ?_, Or.inr ⟨_, hdec2, ?_⟩⟩
      · intro i hi
        exact hfirst i (hlen ▸ hi)
      · intro i hi
        exact hfirst2 i (hlen2 ▸ hi)

/-- Witness of `kvpEntry_first_two_segments`: the item `"k=v=w"` derives the key
`k` and the value `v`, also when a default key is given. -/
theorem kvpEntry_first_two_segments_witness :
    contains "k=v=w".toList "=".toList = true
    ∧ ∃ key value rest : Str,
        kvpEntry "k=v=w".toList "=".toList ["d".toList] = .ret (key, value)
        ∧ "k=v=w".toList = key ++ "=".toList ++ rest
        ∧ key = "k".toList ∧ value = "v".toList := by
  obtain ⟨⟨key, value, rest, h1, h2, _, _⟩, _⟩ :=
    kvpEntry_first_two_segments "k=v=w".toList "=".toList ["d".toList]
      (by decide) (by decide)
  have h3 : kvpEntry "k=v=w".toList "=".toList ["d".toList]
      = .ret ("k".toList, "v".toList) := by decide
  rw [h3] at h1
  injection h1 with h1
  injection h1 with hk hv
  exact ⟨by decide, key, value, rest, by rw [h3, hk, hv], h2, hk.symm, hv.symm⟩

theorem get_foldl_set_of_last (kvs1 kvs2 : List (Str × Str)) (k v : Str)
    (h : ∀ kv ∈ kvs2, kv.1 = k → kv.2 = v) (output : GoMap Str) :
    ((kvs1 ++ (k, v) :: kvs2).foldl (fun o kv => GoMap.set o kv.1 kv.2) output).get k
      = some v := by
  rw [get_foldl_set]
  simp only [List.reverse_append, List.reverse_cons, List.append_assoc, List.find?_append]
  cases hf : kvs2.reverse.find? (fun kv => decide (kv.1 = k)) with
  | some kv =>
    have hmem : kv ∈ kvs2 := List.mem_reverse.mp (List.mem_of_find?_eq_some hf)
    have hp : kv.1 = k := by simpa using List.find?_some hf
    simp [h kv hmem hp]
  | none => simp [List.find?]

theorem find?_self_mapped (items : List Str) (k : Str) :
    (items.map (fun it => (it, it))).find? (fun kv => decide (kv.1 = k))
      = if k ∈ items then some (k, k) else none := by
  induction items with
  | nil => rfl
  | cons it rest ih =>
    by_cases hk : it = k
    · simp [List.find?, hk]
    · have hk2 : ¬ k = it := fun e => hk e.symm
      simp only [List.map_cons, List.find?, hk, decide_False, ih, List.mem_cons, hk2, false_or]

/-- C6, the claim as stated fails: with input `"x,x=1"`, list separator `","`,
key-value separator `"="` and no default key, the item `x` does not contain
`"="`, yet the returned map binds `x` to `1`, not to itself. -/
theorem splitKeyValuePairs_self_mapped_counterexample :
    "x".toList ∈ split "x,x=1".toList ",".toList
    ∧ contains "x".toList "=".toList = false
    ∧ splitKeyValuePairs "x,x=1".toList ",".toList "=".toList []
        = .ret [("x".toList, "1".toList)]
    ∧ GoMap.get [("x".toList, "1".toList)] "x".toList ≠ some "x".toList := by
  decide

/-- C6, amended: for a non-empty `kvpSep`, when no default key is supplied or
the supplied one is the empty string, `splitKeyValuePairs` returns a map in
which every item of `Split(input, listSep)` that does not contain `kvpSep` is a
key.  An occurrence of such an item is bound to itself if no item after it
contains `kvpSep` and has the item as the text before its first `kvpSep`.  If
the last item of the list whose derived key is the item contains `kvpSep`, the
key is bound to the value derived from that item instead.  And if no item
contains `kvpSep`, the map is the identity on the set of items. -/
theorem splitKeyValuePairs_self_mapped (input listSep kvpSep : Str)
    (defaultKey : List Str) (hne : kvpSep ≠ [])
    (hdk : defaultKey = [] ∨ defaultKey.head? = some []) :
    ∃ output : GoMap Str,
      splitKeyValuePairs input listSep kvpSep defaultKey = .ret output
      ∧ (∀ pre item post, split input listSep = pre ++ item :: post →
          contains item kvpSep = false →
          item ∈ output.keys
          ∧ ((∀ later ∈ post, ∀ m, index later kvpSep = some m → later.take m ≠ item) →
              output.get item = some item)
          ∧ (∀ mid later post2 m, post = mid ++ later :: post2 →
              index later kvpSep = some m → later.take m = item →
              (∀ it ∈ post2, it ≠ item
                ∧ ∀ m2, index it kvpSep = some m2 → it.take m2 ≠ item) →
              ∃ value, kvpEntry later kvpSep defaultKey = .ret (item, value)
                ∧ output.get item = some value))
      ∧ ((∀ item ∈ split input listSep, contains item kvpSep = false) →
          output.keys.Nodup
          ∧ ∀ k, output.get k = if k ∈ split input listSep then some k else none) := by
  have hself : ∀ it, contains it kvpSep = false →
      kvpEntry it kvpSep defaultKey = .ret (it, it) := by
    intro it hit
    rw [kvpEntry_of_not_contains it kvpSep defaultKey hit]
    rcases hdk with h | h
    · subst h
      rfl
    · cases defaultKey with
      | nil => rfl
      | cons d t =>
        have hd : d = [] := by simpa using h
        simp only [hd, if_true]
  let f : Str → Str × Str := fun it =>
    match kvpEntry it kvpSep defaultKey with
    | .ret kv => kv
    | .panic _ => ([], [])
  have hf : ∀ it, kvpEntry it kvpSep defaultKey = .ret (f it) := by
    intro it
    obtain ⟨kv, hkv⟩ := kvpEntry_total it kvpSep defaultKey hne
    simp only [f, hkv]
  have hfself : ∀ it, contains it kvpSep = false → f it = (it, it) := by
    intro it hit
    have h1 := hf it
    rw [hself it hit] at h1
    injection h1 with h1
    exact h1.symm
  have hrun := kvpLoop_map kvpSep defaultKey f (split input listSep)
    (fun it _ => hf it) []
  refine ⟨_, hrun, ?_, ?_⟩
  · intro pre item post hs hc
    rw [hs]
    refine ⟨?_, ?_, ?_⟩
    · rw [mem_keys_foldl_set]
      right
      simp only [List.map_append, List.map_cons, List.map_map, List.mem_append, List.mem_cons]
      right
      left
      rw [hfself item hc]
    rotate_left
    · intro mid later post2 m hpost hi htake hrest
      have h1 := hf later
      rw [kvpEntry_of_contains later kvpSep defaultKey hne m hi, htake] at h1
      injection h1 with h1
      refine ⟨(f later).2, ?_, ?_⟩
      · rw [hf later, ← h1]
      · have hdec : pre ++ item :: post = (pre ++ item :: mid) ++ later :: post2 := by
          rw [hpost]
          simp
        rw [hdec, List.map_append, List.map_cons]
        have hfl : f later = (item, (f later).2) := by rw [← h1]
        rw [hfl]
        apply get_foldl_set_of_last
        intro kv hkv hkey
        obtain ⟨it, hmem, rfl⟩ := List.mem_map.mp hkv
        obtain ⟨hne1, hne2⟩ := hrest it hmem
        cases hi2 : index it kvpSep with
        | none =>
          have hcl : contains it kvpSep = false := by simp [contains, hi2]
          rw [hfself it hcl] at hkey
          exact absurd hkey hne1
        | some m2 =>
          have h2 := hf it
          rw [kvpEntry_of_contains it kvpSep defaultKey hne m2 hi2] at h2
          injection h2 with h2
          rw [← h2] at hkey
          exact absurd hkey (hne2 m2 hi2)
    · intro hlater
      simp only [List.map_append, List.map_cons, hfself item hc]
      apply get_foldl_set_of_last
      intro kv hkv hkey
      obtain ⟨later, hmem, rfl⟩ := List.mem_map.mp hkv
      cases hi : index later kvpSep with
      | none =>
        have hcl : contains later kvpSep = false := by simp [contains, hi]
        rw [hfself later hcl] at hkey ⊢
        exact hkey
      | some m =>
        have h1 := hf later
        rw [kvpEntry_of_contains later kvpSep defaultKey hne m hi] at h1
        injection h1 with h1
        rw [← h1] at hkey
        exact absurd hkey (hlater later hmem m hi)
  · intro hall
    have hmap : (split input listSep).map f
        = (split input listSep).map (fun it => (it, it)) :=
      List.map_congr_left (fun it hit => hfself it (hall it hit))
    rw [hmap]
    refine ⟨nodup_keys_foldl_set _ [] List.nodup_nil, ?_⟩
    intro k
    rw [get_foldl_set, ← List.map_reverse, find?_self_mapped]
    by_cases hk : k ∈ split input listSep
    · simp [hk]
    · simp only [List.mem_reverse, hk, if_false]
      rfl

/-- Witness of `splitKeyValuePairs_self_mapped`: in `"x,x=1,x"` the last item
`x` binds `x` to itself; in `"x,x=1"` the base case `x` is bound to `1`, the
value of the last item with key `x`; in `"x,y"` every item is bound to itself. -/
theorem splitKeyValuePairs_self_mapped_witness :
    (∃ output : GoMap Str,
      splitKeyValuePairs "x,x=1,x".toList ",".toList "=".toList [] = .ret output
      ∧ "x".toList ∈ output.keys ∧ output.get "x".toList = some "x".toList)
    ∧ (∃ output : GoMap Str,
      splitKeyValuePairs "x,x=1".toList ",".toList "=".toList [] = .ret output
      ∧ output.get "x".toList = some "1".toList)
    ∧ (∃ output : GoMap Str,
      splitKeyValuePairs "x,y".toList ",".toList "=".toList [[]] = .ret output
      ∧ output.get "x".toList = some "x".toList
      ∧ output.get "y".toList = some "y".toList
      ∧ output.get "z".toList = none) := by
  refine ⟨?_, ?_, ?_⟩
  · obtain ⟨output, h1, h2, _⟩ := splitKeyValuePairs_self_mapped "x,x=1,x".toList
      ",".toList "=".toList [] (by decide) (Or.inl rfl)
    obtain ⟨h3, h4, _⟩ := h2 ["x".toList, "x=1".toList] "x".toList [] (by decide)
      (by decide)
    exact ⟨output, h1, h3, h4 (by decide)⟩
  · obtain ⟨output, h1, h2, _⟩ := splitKeyValuePairs_self_mapped "x,x=1".toList
      ",".toList "=".toList [] (by decide) (Or.inl rfl)
    obtain ⟨_, _, h5⟩ := h2 [] "x".toList ["x=1".toList] (by decide) (by decide)
    obtain ⟨value, hv, hg⟩ := h5 [] "x=1".toList [] 1 rfl (by decide) (by decide)
      (by decide)
    have he : kvpEntry "x=1".toList "=".toList [] = .ret ("x".toList, "1".toList) := by
      decide
    rw [he] at hv
    injection hv with hv
    injection hv with _ hv
    exact ⟨output, h1, by rw [hg, ← hv]⟩
  · obtain ⟨output, h1, _, h2⟩ := splitKeyValuePairs_self_mapped "x,y".toList
      ",".toList "=".toList [[]] (by decide) (Or.inr rfl)
    obtain ⟨_, h3⟩ := h2 (by decide)
    refine ⟨output, h1, ?_, ?_, ?_⟩
    · rw [h3]; decide
    · rw [h3]; decide
    · rw [h3]; decide

theorem splitKeyValuePairs_total (input listSep kvpSep : Str) (defaultKey : List Str)
    (hne : kvpSep ≠ []) :
    ∃ output : GoMap Str,
      splitKeyValuePairs input listSep kvpSep defaultKey = .ret output
      ∧ output.keys.Nodup := by
  obtain ⟨kvs, hkvs⟩ := kvpEntry_forall₂ kvpSep defaultKey hne (split input listSep)
  exact ⟨_, kvpLoop_eq_foldl kvpSep defaultKey _ kvs hkvs [],
    nodup_keys_foldl_set kvs [] List.nodup_nil⟩

theorem count_of_nodup (l : List Str) (hnd : l.Nodup) (k : Str) :
    l.count k = if k ∈ l then 1 else 0 := by
  induction l with
  | nil => rfl
  | cons a t ih =>
    have hat : a ∉ t := (List.nodup_cons.mp hnd).1
    have ih2 := ih (List.nodup_cons.mp hnd).2
    by_cases hk : k = a
    · subst hk
      rw [List.count_cons_self, ih2]
      simp [hat]
    · rw [List.count_cons_of_ne hk, ih2]
      simp [hk]

theorem count_of_perm_nodup (l1 l2 : List Str) (hp : l1.Perm l2) (hnd : l2.Nodup)
    (k : Str) : l1.count k = if k ∈ l2 then 1 else 0 := by
  rw [List.count_eq_countP, hp.countP_eq, ← List.count_eq_countP]
  exact count_of_nodup l2 hnd k

/-- C7: for a non-empty `kvpSep`, and whatever the order in which the keys of
the parsed map are visited, `groupByMultiKeyValuePairs` returns a map without
error on a collection without nil pointer elements each of whose elements has a
path that does not resolve or resolves to a string, and it returns only on such
a collection; whenever it returns, the bucket of every key `k` is exactly the
sublist of the collection, in order, of the elements whose path resolves to a
string `s` such that `k` is a key of
`splitKeyValuePairs(s, listSep, kvpSep, defaultKey)`: each such element lies in
the bucket once, also when `s` repeats the key, and in no other bucket. -/
theorem groupByMultiKeyValuePairs_buckets (ord : KeyOrder) (hord : ord.Valid)
    (deepGet : Value → Str → Value)
    (K listSep kvpSep defaultKey : Str) (hne : kvpSep ≠ []) :
    (∀ C : List Value,
      (∀ v ∈ C, deepGet v K = Value.nil ∨ (deepGet v K).isStr = true) →
      ∃ groups : Groups,
        groupByMultiKeyValuePairs ord deepGet (.ofValues C) K listSep kvpSep defaultKey
          = .ret (some groups, none))
    ∧ ∀ (xs : List Slot) (r : GroupResult),
        groupByMultiKeyValuePairs ord deepGet (.seq xs) K listSep kvpSep defaultKey
          = .ret r →
        ∃ (C : List Value) (groups : Groups),
          xs = C.map Slot.val
          ∧ (∀ v ∈ C, deepGet v K = Value.nil ∨ (deepGet v K).isStr = true)
          ∧ r = (some groups, none)
          ∧ ∀ k, bucket groups k = C.filter (fun e =>
              match deepGet e K with
              | .str s =>
                (match splitKeyValuePairs s listSep kvpSep [defaultKey] with
                 | .ret keyValuePairs => decide (k ∈ keyValuePairs.keys)
                 | .panic _ => false)
              | _ => false) := by
  let ks : Value → List Str := fun v =>
    match deepGet v K with
    | .str s =>
      (match splitKeyValuePairs s listSep kvpSep [defaultKey] with
       | .ret keyValuePairs => ord keyValuePairs.keys
       | .panic _ => [])
    | _ => []
  have hrun : ∀ C : List Value,
      (∀ v ∈ C, deepGet v K = Value.nil ∨ (deepGet v K).isStr = true) →
      groupByMultiKeyValuePairs ord deepGet (.ofValues C) K listSep kvpSep defaultKey
        = .ret (some (C.foldl (fun g1 v => appendEach g1 (ks v) v) []), none) := by
    intro C hC
    show groupLoop (fun v => (deepGet v K, none)) _ (C.map Slot.val) [] = _
    apply groupLoop_appendEach
    intro v hv
    refine ⟨rfl, ?_, ?_⟩
    · intro h
      simp only at h
      simp only [ks, h]
    · intro hn g1
      rcases hC v hv with h | h
      · exact absurd h hn
      · obtain ⟨s, hs⟩ := (Value.isStr_iff _).mp h
        obtain ⟨out, hout, _⟩ := splitKeyValuePairs_total s listSep kvpSep [defaultKey] hne
        simp only [hs, ks, hout]
  refine ⟨fun C hC => ⟨_, hrun C hC⟩, ?_⟩
  intro xs r hr
  obtain ⟨C, hxs, hC⟩ : ∃ C : List Value, xs = C.map Slot.val
      ∧ ∀ v ∈ C, deepGet v K = Value.nil ∨ (deepGet v K).isStr = true := by
    refine groupLoop_ret_imp deepGet K _ ?_ xs [] r hr
    intro g value v _ hs
    cases value with
    | str s => cases hs
    | nil => exact ⟨_, rfl⟩
    | container c => exact ⟨_, rfl⟩
    | other t => exact ⟨_, rfl⟩
  subst hxs
  have hr2 := hrun C hC
  rw [hr] at hr2
  injection hr2 with hr2
  refine ⟨C, _, rfl, hC, hr2, ?_⟩
  intro k
  rw [bucket_foldl_appendEach]
  show [] ++ _ = _
  rw [List.nil_append]
  apply flatMap_replicate_le_one
  intro v _
  cases h : deepGet v K with
  | str s =>
    obtain ⟨out, hout, hnd⟩ := splitKeyValuePairs_total s listSep kvpSep [defaultKey] hne
    simp only [ks, h, hout]
    rw [count_of_perm_nodup _ _ (hord out.keys) hnd k]
    by_cases hk : k ∈ out.keys <;> simp [hk]
  | nil => simp [ks, h]
  | container c => simp [ks, h]
  | other t => simp [ks, h]

theorem map_val_injective (C1 C2 : List Value) (h : C1.map Slot.val = C2.map Slot.val) :
    C1 = C2 := by
  induction C1 generalizing C2 with
  | nil =>
    cases C2 with
    | nil => rfl
    | cons b t => cases h
  | cons a t ih =>
    cases C2 with
    | nil => cases h
    | cons b t2 =>
      simp only [List.map_cons, List.cons.injEq, Slot.val.injEq] at h
      rw [h.1, ih t2 h.2]

/-- Witness of `groupByMultiKeyValuePairs_buckets`: an element whose value is
`"a=1,a=2"` lies once in bucket `a`, and one whose value is `"a=1,b=2"` lies
once in bucket `a` and once in bucket `b`; the keys are visited in reverse. -/
theorem groupByMultiKeyValuePairs_buckets_witness :
    ∃ groups : Groups,
      groupByMultiKeyValuePairs List.reverse (fun v _ => v)
        (.ofValues [.str "a=1,a=2".toList, .nil, .str "a=1,b=2".toList]) []
        ",".toList "=".toList [] = .ret (some groups, none)
      ∧ bucket groups "a".toList = [.str "a=1,a=2".toList, .str "a=1,b=2".toList]
      ∧ bucket groups "b".toList = [.str "a=1,b=2".toList]
      ∧ bucket groups "1".toList = [] := by
  obtain ⟨hret, hbuckets⟩ := groupByMultiKeyValuePairs_buckets List.reverse
    (fun ks => List.reverse_perm ks) (fun v _ => v) []
    ",".toList "=".toList [] (by decide)
  obtain ⟨groups0, h0⟩ := hret [.str "a=1,a=2".toList, .nil, .str "a=1,b=2".toList]
    (by decide)
  obtain ⟨C, groups, hC, _, h1, h2⟩ := hbuckets _ _ h0
  have hC2 := map_val_injective _ _ hC
  subst hC2
  injection h1 with h1 _
  injection h1 with h1
  subst h1
  refine ⟨groups0, h0, ?_, ?_, ?_⟩
  · rw [h2]; decide
  · rw [h2]; decide
  · rw [h2]; decide

/-! ## `groupByKeys` -/

theorem foldl_append_singleton (l acc : List Str) :
    l.foldl (fun ret k => ret ++ [k]) acc = acc ++ l := by
  induction l generalizing acc with
  | nil => simp
  | cons a t ih => simp [List.foldl_cons, ih]

theorem addSingle_nodup (g g1 : Groups) (value v : Value)
    (h : addSingle g value v = .ret g1) (hnd : g.keys.Nodup) : g1.keys.Nodup := by
  cases value with
  | str s =>
    simp only [addSingle, Exec.ret.injEq] at h
    subst h
    exact GoMap.nodup_keys_set _ _ _ hnd
  | nil => simp [addSingle] at h
  | container c => simp [addSingle] at h
  | other t => simp [addSingle] at h

/-- The loop returns either a map and no error, or no map and an error; with
the single-key assignment the keys of a returned map are pairwise distinct. -/
theorem groupLoop_addSingle_shape (getValue : Value → Value × Option Error)
    (xs : List Slot) (g : Groups) (hnd : g.keys.Nodup) (r : GroupResult)
    (h : groupLoop getValue addSingle xs g = .ret r) :
    (∃ groups : Groups, r = (some groups, none) ∧ groups.keys.Nodup)
      ∨ ∃ err, r = (none, some err) := by
  induction xs generalizing g with
  | nil =>
    simp only [groupLoop, Exec.ret.injEq] at h
    exact Or.inl ⟨g, h.symm, hnd⟩
  | cons x rest ih =>
    cases x with
    | nilPtr => simp [groupLoop] at h
    | val v =>
      rcases hgv : getValue v with ⟨value, e⟩
      cases e with
      | some err =>
        simp only [groupLoop, hgv, Exec.ret.injEq] at h
        exact Or.inr ⟨err, h.symm⟩
      | none =>
        by_cases hn : value = Value.nil
        · simp only [groupLoop, hgv, hn, ne_eq, not_true_eq_false, if_false] at h
          exact ih g hnd h
        · simp only [groupLoop, hgv, ne_eq, hn, not_false_eq_true, if_true] at h
          cases ha : addSingle g value v with
          | panic p => simp [ha] at h
          | ret g1 =>
            simp only [ha] at h
            exact ih g1 (addSingle_nodup g g1 value v ha hnd) h

/-- C8: whatever the order in which the keys of the map are visited, when
`groupBy` returns a map, `groupByKeys` returns a list without error, the list
has no duplicate, and its members are exactly the keys of the map of
`groupBy`; `groupByKeys` returns an error exactly when `groupBy` does, and
panics exactly when `groupBy` does. -/
theorem groupByKeys_keys (ord : KeyOrder) (hord : ord.Valid)
    (deepGet : Value → Str → Value) (entries : Entries) (K : Str) :
    (∀ groups : Groups, groupBy deepGet entries K = .ret (some groups, none) →
      ∃ keys : List Str,
        groupByKeys ord deepGet entries K = .ret (some keys, none)
        ∧ keys.Nodup ∧ ∀ k, k ∈ keys ↔ k ∈ groups.keys)
    ∧ ((∃ err, groupByKeys ord deepGet entries K = .ret (none, some err))
        ↔ ∃ err, groupBy deepGet entries K = .ret (none, some err))
    ∧ ∀ p, groupByKeys ord deepGet entries K = .panic p
        ↔ groupBy deepGet entries K = .panic p := by
  cases entries with
  | notSeq x =>
    have h1 : groupBy deepGet (.notSeq x) K
        = .ret (none, some (.arrayExpected "groupBy".toList x)) := rfl
    have h2 : groupByKeys ord deepGet (.notSeq x) K
        = .ret (none, some (.arrayExpected "groupByKeys".toList x)) := rfl
    rw [h1, h2]
    refine ⟨?_, ?_, ?_⟩
    · intro groups h
      simp at h
    · exact ⟨fun _ => ⟨_, rfl⟩, fun _ => ⟨_, rfl⟩⟩
    · intro p
      simp
  | seq C =>
    have h1 : groupBy deepGet (.seq C) K
        = groupLoop (fun v => (deepGet v K, none)) addSingle C [] := rfl
    have h2 : groupByKeys ord deepGet (.seq C) K
        = match groupLoop (fun v => (deepGet v K, none)) addSingle C [] with
          | .panic p => .panic p
          | .ret (_, some err) => .ret (none, some err)
          | .ret (keys, none) =>
            .ret (some ((ord (keys.getD []).keys).foldl (fun ret k => ret ++ [k]) []),
              none) := rfl
    rw [h1, h2]
    cases hr : groupLoop (fun v => (deepGet v K, none)) addSingle C [] with
    | panic p =>
      refine ⟨?_, ?_, ?_⟩
      · intro groups h
        simp at h
      · simp
      · intro q
        simp
    | ret r =>
      rcases groupLoop_addSingle_shape _ C [] List.nodup_nil r hr with
        ⟨groups, rfl, hnd⟩ | ⟨err, rfl⟩
      · refine ⟨?_, ?_, ?_⟩
        · intro groups1 h
          simp only [Exec.ret.injEq, Prod.mk.injEq, Option.some.injEq, and_true] at h
          subst h
          refine ⟨ord (GoMap.keys groups), ?_, ?_, ?_⟩
          · simp only [Option.getD_some, foldl_append_singleton, List.nil_append]
          · exact (hord _).nodup_iff.mpr hnd
          · intro k
            exact (hord _).mem_iff
        · simp
        · intro q
          simp
      · refine ⟨?_, ?_, ?_⟩
        · intro groups h
          simp at h
        · exact ⟨fun _ => ⟨_, rfl⟩, fun _ => ⟨_, rfl⟩⟩
        · intro q
          simp

/-- Witness of `groupByKeys_keys`: on a collection with the values `b`, `a`,
`b`, the keys, visited in reverse, are `a` and `b`, each once. -/
theorem groupByKeys_keys_witness :
    ∃ keys : List Str,
      groupByKeys List.reverse (fun v _ => v)
        (.ofValues [.str "b".toList, .str "a".toList, .str "b".toList]) []
        = .ret (some keys, none)
      ∧ keys.Nodup
      ∧ ∀ k, k ∈ keys ↔ k ∈ ["b".toList, "a".toList] := by
  obtain ⟨h, _, _⟩ := groupByKeys_keys List.reverse (fun ks => List.reverse_perm ks)
    (fun v _ => v) (.ofValues [.str "b".toList, .str "a".toList, .str "b".toList]) []
  exact h [("b".toList, [.str "b".toList, .str "b".toList]),
    ("a".toList, [.str "a".toList])] (by decide)

/-! ## `groupByLabel` -/

theorem Value.isContainer_iff (x : Value) :
    x.isContainer = true ↔ ∃ c, x = Value.container c := by
  cases x with
  | container c => exact ⟨fun _ => ⟨c, rfl⟩, fun _ => rfl⟩
  | nil => exact ⟨fun h => (by cases h), fun ⟨c, h⟩ => (by cases h)⟩
  | str s => exact ⟨fun h => (by cases h), fun ⟨c, h⟩ => (by cases h)⟩
  | other t => exact ⟨fun h => (by cases h), fun ⟨c, h⟩ => (by cases h)⟩

theorem getLabel_of_not_container (label : Str) (v : Value) (h : v.isContainer = false) :
    getLabel label v = (Value.nil, some (.errorf groupByLabelFormat [v])) := by
  cases v with
  | container c => cases h
  | nil => rfl
  | str s => rfl
  | other t => rfl

/-- The buckets to which `groupByLabel` appends an element: the one keyed by
the value of the label, if the element is a container that has the label. -/
theorem groupLoop_getLabel_ok (label : Str) (C : List Value) (g : Groups)
    (hC : ∀ v ∈ C, v.isContainer = true) :
    groupLoop (getLabel label) addSingle (C.map Slot.val) g
      = .ret (some (C.foldl (fun g1 v => appendEach g1
          (match v with
           | .container c =>
             (match c.Labels.get label with
              | some value => [value]
              | none => [])
           | _ => []) v) g), none) := by
  apply groupLoop_appendEach
  intro v hv
  obtain ⟨c, rfl⟩ := (Value.isContainer_iff v).mp (hC v hv)
  cases hl : c.Labels.get label with
  | none => simp [getLabel, hl]
  | some value =>
    refine ⟨by simp [getLabel, hl], by simp [getLabel, hl], ?_⟩
    intro _ g1
    simp only [getLabel, hl]
    rfl

theorem groupLoop_getLabel_error (label : Str) (pre : List Value) (v : Value)
    (post : List Slot) (g : Groups) (hpre : ∀ u ∈ pre, u.isContainer = true)
    (hv : v.isContainer = false) :
    groupLoop (getLabel label) addSingle (pre.map Slot.val ++ Slot.val v :: post) g
      = .ret (none, some (.errorf groupByLabelFormat [v])) := by
  induction pre generalizing g with
  | nil =>
    simp only [List.map_nil, List.nil_append, groupLoop,
      getLabel_of_not_container label v hv]
  | cons u rest ih =>
    have ih2 := fun g1 => ih g1 (fun w hw => hpre w (List.mem_cons_of_mem u hw))
    obtain ⟨c, rfl⟩ := (Value.isContainer_iff u).mp (hpre u (List.mem_cons_self u rest))
    cases hl : c.Labels.get label with
    | none =>
      simp only [List.map_cons, List.cons_append, groupLoop, getLabel, hl, ne_eq,
        not_true_eq_false, if_false]
      exact ih2 g
    | some value =>
      simp only [List.map_cons, List.cons_append, groupLoop, getLabel, hl, ne_eq,
        reduceCtorEq, not_false_eq_true, if_true, addSingle]
      exact ih2 _

theorem exists_first_not_container (C : List Value)
    (h : ∃ v ∈ C, v.isContainer = false) :
    ∃ pre v post, C = pre ++ v :: post ∧ (∀ u ∈ pre, u.isContainer = true)
      ∧ v.isContainer = false := by
  induction C with
  | nil =>
    obtain ⟨v, hv, _⟩ := h
    cases hv
  | cons a t ih =>
    by_cases ha : a.isContainer = true
    · have ht : ∃ v ∈ t, v.isContainer = false := by
        obtain ⟨v, hv, hvc⟩ := h
        rcases List.mem_cons.mp hv with rfl | hv
        · rw [ha] at hvc
          cases hvc
        · exact ⟨v, hv, hvc⟩
      obtain ⟨pre, v, post, hdec, hpre, hv⟩ := ih ht
      refine ⟨a :: pre, v, post, by rw [hdec]; rfl, ?_, hv⟩
      intro u hu
      rcases List.mem_cons.mp hu with rfl | hu
      · exact ha
      · exact hpre u hu
    · exact ⟨[], a, t, rfl, fun u hu => (by cases hu), by simpa using ha⟩

/-- C9, the claim as stated fails on a sequence with a nil pointer element: in
the slice of a pointer to a container and a nil pointer, the second element
exposes no label map, yet `groupByLabel` returns no error: it panics when it
reads the nil pointer element. -/
theorem groupByLabel_error_counterexample :
    groupByLabel
        (.seq [.val (.container ⟨"c1".toList, [("l".toList, "x".toList)]⟩), .nilPtr])
        "l".toList
      = .panic .zeroValueInterface
    ∧ ¬ ∃ groups err, groupByLabel
        (.seq [.val (.container ⟨"c1".toList, [("l".toList, "x".toList)]⟩), .nilPtr])
        "l".toList = .ret (groups, some err) := by
  constructor
  · decide
  · rintro ⟨groups, err, h⟩
    have h2 : groupByLabel
        (.seq [.val (.container ⟨"c1".toList, [("l".toList, "x".toList)]⟩), .nilPtr])
        "l".toList = .panic .zeroValueInterface := by decide
    rw [h2] at h
    cases h

/-- C9, amended: on a sequence without nil pointer elements, `groupByLabel`
does not panic and returns an error exactly when some element is not a
`RuntimeContainer`; on every sequence, when it returns an error the returned
map is nil; and when only `RuntimeContainer`s precede the first element that is
not one, and that element is not a nil pointer, the error is the one built from
the format string of `groupByLabel`, which contains the name of the operation
in quotes, and from that element, whatever was bucketed before it and whatever
follows it. -/
theorem groupByLabel_error (label : Str) :
    (∀ C : List Value,
      (∃ r, groupByLabel (.ofValues C) label = .ret r)
      ∧ ((∃ groups err, groupByLabel (.ofValues C) label = .ret (groups, some err))
          ↔ ∃ v ∈ C, v.isContainer = false))
    ∧ (∀ (xs : List Slot) groups err,
        groupByLabel (.seq xs) label = .ret (groups, some err) → groups = none)
    ∧ (∀ (pre : List Value) (v : Value) (post : List Slot),
        (∀ u ∈ pre, u.isContainer = true) → v.isContainer = false →
        groupByLabel (.seq (pre.map Slot.val ++ Slot.val v :: post)) label
          = .ret (none, some (.errorf groupByLabelFormat [v])))
    ∧ contains groupByLabelFormat "'groupByLabel'".toList = true := by
  have herr : ∀ (pre : List Value) (v : Value) (post : List Slot),
      (∀ u ∈ pre, u.isContainer = true) → v.isContainer = false →
      groupByLabel (.seq (pre.map Slot.val ++ Slot.val v :: post)) label
        = .ret (none, some (.errorf groupByLabelFormat [v])) := by
    intro pre v post hpre hv
    exact groupLoop_getLabel_error label pre v post [] hpre hv
  refine ⟨?_, ?_, herr, by decide⟩
  · intro C
    have hrun : groupByLabel (.ofValues C) label
        = groupLoop (getLabel label) addSingle (C.map Slot.val) [] := rfl
    by_cases hall : ∀ v ∈ C, v.isContainer = true
    · have hok := groupLoop_getLabel_ok label C [] hall
      have hno : ¬ ∃ v ∈ C, v.isContainer = false := by
        rintro ⟨v, hv, hvc⟩
        rw [hall v hv] at hvc
        cases hvc
      refine ⟨⟨_, hrun.trans hok⟩, ?_⟩
      constructor
      · rintro ⟨groups, err, h⟩
        rw [hrun, hok] at h
        simp at h
      · intro h
        exact absurd h hno
    · have hex : ∃ v ∈ C, v.isContainer = false := by
        by_contra hcon
        apply hall
        intro v hv
        by_contra hvc
        exact hcon ⟨v, hv, by simpa using hvc⟩
      obtain ⟨pre, v, post, hdec, hpre, hv⟩ := exists_first_not_container C hex
      have he := herr pre v (post.map Slot.val) hpre hv
      have hmap : (Entries.ofValues C)
          = .seq (pre.map Slot.val ++ Slot.val v :: post.map Slot.val) := by
        rw [hdec]
        simp
      rw [← hmap] at he
      exact ⟨⟨_, he⟩, fun _ => hex, fun _ => ⟨_, _, he⟩⟩
  · intro xs groups err h
    have h2 : groupLoop (getLabel label) addSingle xs [] = .ret (groups, some err) := h
    rcases groupLoop_addSingle_shape _ xs [] List.nodup_nil _ h2 with
      ⟨g1, hg, _⟩ | ⟨e1, he⟩
    · injection hg with _ hg2
      cases hg2
    · injection he with he1 _

/-- Witness of `groupByLabel_error`: the second element is not a container; the
first one, already bucketed, is not returned, and the nil pointer after it is
not reached. -/
theorem groupByLabel_error_witness :
    groupByLabel
      (.seq [.val (.container ⟨"c1".toList, [("l".toList, "x".toList)]⟩),
        .val (.other 7), .nilPtr])
      "l".toList
      = .ret (none, some (.errorf groupByLabelFormat [.other 7])) := by
  obtain ⟨_, _, h, _⟩ := groupByLabel_error "l".toList
  exact h [.container ⟨"c1".toList, [("l".toList, "x".toList)]⟩] (.other 7) [.nilPtr]
    (by decide) rfl

/-- C10: on a sequence all of whose elements are `RuntimeContainer`s,
`groupByLabel` returns a map without error; the bucket of every key `k` is
exactly the sublist of the sequence, in order, of the elements whose label map
binds the label to `k`; the keys are exactly these values; an element whose
label map lacks the label is in no bucket. -/
theorem groupByLabel_buckets (C : List Value) (label : Str)
    (hC : ∀ v ∈ C, v.isContainer = true) :
    ∃ groups : Groups,
      groupByLabel (.ofValues C) label = .ret (some groups, none)
      ∧ (∀ k, bucket groups k = C.filter (fun v =>
          match v with
          | .container c => decide (c.Labels.get label = some k)
          | _ => false))
      ∧ (∀ k, k ∈ groups.keys ↔
          ∃ c, Value.container c ∈ C ∧ c.Labels.get label = some k) := by
  refine ⟨_, groupLoop_getLabel_ok label C [] hC, ?_, ?_⟩
  · intro k
    rw [bucket_foldl_appendEach]
    show [] ++ _ = _
    rw [List.nil_append]
    apply flatMap_replicate_le_one
    intro v hv
    obtain ⟨c, rfl⟩ := (Value.isContainer_iff v).mp (hC v hv)
    cases hl : c.Labels.get label with
    | none => simp [hl]
    | some value =>
      by_cases hk : value = k
      · simp [hl, hk]
      · simp [hl, hk, List.count_singleton]
  · intro k
    rw [mem_keys_foldl_appendEach]
    constructor
    · rintro (h | ⟨v, hv, hk⟩)
      · cases h
      · obtain ⟨c, rfl⟩ := (Value.isContainer_iff v).mp (hC v hv)
        refine ⟨c, hv, ?_⟩
        cases hl : c.Labels.get label with
        | none => simp [hl] at hk
        | some value =>
          simp only [hl, List.mem_singleton] at hk
          rw [hk]
    · rintro ⟨c, hc, hl⟩
      exact Or.inr ⟨_, hc, by simp [hl]⟩

/-- Witness of `groupByLabel_buckets`: three containers, the second of which
lacks the label. -/
theorem groupByLabel_buckets_witness :
    ∃ groups : Groups,
      groupByLabel
        (.ofValues [.container ⟨"c1".toList, [("l".toList, "x".toList)]⟩,
          .container ⟨"c2".toList, [("m".toList, "x".toList)]⟩,
          .container ⟨"c3".toList, [("m".toList, "y".toList), ("l".toList, "x".toList)]⟩])
        "l".toList = .ret (some groups, none)
      ∧ bucket groups "x".toList
          = [.container ⟨"c1".toList, [("l".toList, "x".toList)]⟩,
             .container ⟨"c3".toList, [("m".toList, "y".toList), ("l".toList, "x".toList)]⟩]
      ∧ bucket groups "y".toList = [] := by
  obtain ⟨groups, h1, h2, _⟩ := groupByLabel_buckets
    [.container ⟨"c1".toList, [("l".toList, "x".toList)]⟩,
      .container ⟨"c2".toList, [("m".toList, "x".toList)]⟩,
      .container ⟨"c3".toList, [("m".toList, "y".toList), ("l".toList, "x".toList)]⟩]
    "l".toList (by decide)
  refine ⟨groups, h1, ?_, ?_⟩
  · rw [h2]; decide
  · rw [h2]; decide

/-! ## The map returned on success -/

/-- When the loop returns a map and every returning call of the assignment on
an element `v` appends `v` to the buckets `ks v`, no element is a nil pointer
and the returned map is the one obtained by doing so element by element. -/
theorem groupLoop_ret_foldl (getValue : Value → Value × Option Error)
    (addEntry : Groups → Value → Value → Exec Groups) (ks : Value → List Str)
    (xs : List Slot) (g groups : Groups)
    (hnil : ∀ v, (getValue v).1 = Value.nil → ks v = [])
    (hadd : ∀ v, ∀ g0 g1 : Groups, addEntry g0 (getValue v).1 v = .ret g1 →
      g1 = appendEach g0 (ks v) v)
    (h : groupLoop getValue addEntry xs g = .ret (some groups, none)) :
    ∃ C : List Value, xs = C.map Slot.val
      ∧ groups = C.foldl (fun g1 v => appendEach g1 (ks v) v) g := by
  induction xs generalizing g with
  | nil =>
    simp only [groupLoop, Exec.ret.injEq, Prod.mk.injEq, Option.some.injEq, and_true] at h
    exact ⟨[], rfl, h.symm⟩
  | cons x rest ih =>
    cases x with
    | nilPtr => simp [groupLoop] at h
    | val v =>
      have hnil0 := hnil v
      have hadd0 := hadd v
      rcases hgv : getValue v with ⟨value, e⟩
      rw [hgv] at hnil0 hadd0
      simp only at hnil0 hadd0
      cases e with
      | some err => simp [groupLoop, hgv] at h
      | none =>
        by_cases hn : value = Value.nil
        · simp only [groupLoop, hgv, hn, ne_eq, not_true_eq_false, if_false] at h
          obtain ⟨C, hC, hg⟩ := ih g h
          refine ⟨v :: C, by rw [hC]; rfl, ?_⟩
          rw [List.foldl_cons, hnil0 hn]
          exact hg
        · simp only [groupLoop, hgv, ne_eq, hn, not_false_eq_true, if_true] at h
          cases ha : addEntry g value v with
          | panic p => simp [ha] at h
          | ret g1 =>
            simp only [ha] at h
            obtain ⟨C, hC, hg⟩ := ih g1 h
            refine ⟨v :: C, by rw [hC]; rfl, ?_⟩
            rw [List.foldl_cons, ← hadd0 g g1 ha]
            exact hg

theorem generalizedGroupBy_ret_seq (funcName : Str) (entries : Entries)
    (getValue : Value → Value × Option Error)
    (addEntry : Groups → Value → Value → Exec Groups) (groups : Groups)
    (h : generalizedGroupBy funcName entries getValue addEntry = .ret (some groups, none)) :
    ∃ xs, entries = .seq xs
      ∧ groupLoop getValue addEntry xs [] = .ret (some groups, none) := by
  cases entries with
  | seq xs => exact ⟨xs, rfl, h⟩
  | notSeq x => simp [generalizedGroupBy, getArrayValues] at h

theorem addSingle_ret (g0 g1 : Groups) (value v : Value)
    (h : addSingle g0 value v = .ret g1) :
    ∃ s, value = Value.str s ∧ g1 = appendEach g0 [s] v := by
  cases value with
  | str s =>
    simp only [addSingle, Exec.ret.injEq] at h
    exact ⟨s, rfl, h.symm⟩
  | nil => simp [addSingle] at h
  | container c => simp [addSingle] at h
  | other t => simp [addSingle] at h

theorem groupBy_ret_foldl (deepGet : Value → Str → Value) (entries : Entries)
    (K : Str) (groups : Groups)
    (h : groupBy deepGet entries K = .ret (some groups, none)) :
    ∃ C, entries = .ofValues C
      ∧ groups = C.foldl (fun g1 v => appendEach g1 (pathKeys deepGet K v) v) [] := by
  obtain ⟨xs, hxs, hrun⟩ := generalizedGroupBy_ret_seq _ entries _ _ groups h
  obtain ⟨C, hC, hg⟩ : ∃ C : List Value, xs = C.map Slot.val
      ∧ groups = C.foldl (fun g1 v => appendEach g1
          (pathKeys deepGet K v) v) [] := by
    refine groupLoop_ret_foldl _ _ _ xs [] groups ?_ ?_ hrun
    · intro v hn
      simp only at hn
      simp only [pathKeys, hn]
    · intro v g0 g1 ha
      obtain ⟨s, hs, hg⟩ := addSingle_ret g0 g1 _ v ha
      simp only at hs
      simp only [pathKeys, hs]
      exact hg
  exact ⟨C, by rw [hxs, hC], hg⟩

theorem groupByLabel_ret_foldl (entries : Entries) (label : Str) (groups : Groups)
    (h : groupByLabel entries label = .ret (some groups, none)) :
    ∃ C, entries = .ofValues C
      ∧ groups = C.foldl (fun g1 v => appendEach g1 (labelKeys label v) v) [] := by
  obtain ⟨xs, hxs, hrun⟩ := generalizedGroupBy_ret_seq _ entries _ _ groups h
  obtain ⟨C, hC, hg⟩ : ∃ C : List Value, xs = C.map Slot.val
      ∧ groups = C.foldl (fun g1 v => appendEach g1
          (labelKeys label v) v) [] := by
    refine groupLoop_ret_foldl _ _ _ xs [] groups ?_ ?_ hrun
    · intro v hn
      cases v with
      | container c =>
        cases hl : c.Labels.get label with
        | none => simp [labelKeys, hl]
        | some value => simp [getLabel, hl] at hn
      | nil => rfl
      | str s => rfl
      | other t => rfl
    · intro v g0 g1 ha
      obtain ⟨s, hs, hg⟩ := addSingle_ret g0 g1 _ v ha
      cases v with
      | container c =>
        cases hl : c.Labels.get label with
        | none => simp [getLabel, hl] at hs
        | some value =>
          simp only [getLabel, hl, Value.str.injEq] at hs
          simp only [labelKeys, hl, hs]
          exact hg
      | nil => simp [getLabel] at hs
      | str s => simp [getLabel] at hs
      | other t => simp [getLabel] at hs
  exact ⟨C, by rw [hxs, hC], hg⟩

theorem groupByMulti_ret_foldl (deepGet : Value → Str → Value) (entries : Entries)
    (K sep : Str) (groups : Groups)
    (h : groupByMulti deepGet entries K sep = .ret (some groups, none)) :
    ∃ C, entries = .ofValues C
      ∧ groups = C.foldl (fun g1 v => appendEach g1 (multiKeys deepGet K sep v) v) [] := by
  obtain ⟨xs, hxs, hrun⟩ := generalizedGroupBy_ret_seq _ entries _ _ groups h
  obtain ⟨C, hC, hg⟩ : ∃ C : List Value, xs = C.map Slot.val
      ∧ groups = C.foldl (fun g1 v => appendEach g1
          (multiKeys deepGet K sep v) v) [] := by
    refine groupLoop_ret_foldl _ _ _ xs [] groups ?_ ?_ hrun
    · intro v hn
      simp only at hn
      simp only [multiKeys, hn]
    · intro v g0 g1 ha
      simp only at ha
      cases hv : deepGet v K with
      | str s =>
        simp only [hv, Exec.ret.injEq] at ha
        simp only [multiKeys, hv]
        exact ha.symm
      | nil => simp [hv] at ha
      | container c => simp [hv] at ha
      | other t => simp [hv] at ha
  exact ⟨C, by rw [hxs, hC], hg⟩

theorem groupByMultiKeyValuePairs_ret_foldl (ord : KeyOrder)
    (deepGet : Value → Str → Value) (entries : Entries)
    (K listSep kvpSep defaultKey : Str) (groups : Groups)
    (h : groupByMultiKeyValuePairs ord deepGet entries K listSep kvpSep defaultKey
      = .ret (some groups, none)) :
    ∃ C, entries = .ofValues C
      ∧ groups = C.foldl (fun g1 v => appendEach g1
          (kvpKeys ord deepGet K listSep kvpSep defaultKey v) v) [] := by
  obtain ⟨xs, hxs, hrun⟩ := generalizedGroupBy_ret_seq _ entries _ _ groups h
  obtain ⟨C, hC, hg⟩ : ∃ C : List Value, xs = C.map Slot.val
      ∧ groups = C.foldl (fun g1 v => appendEach g1
          (kvpKeys ord deepGet K listSep kvpSep defaultKey v) v) [] := by
    refine groupLoop_ret_foldl _ _ _ xs [] groups ?_ ?_ hrun
    · intro v hn
      simp only at hn
      simp only [kvpKeys, hn]
    · intro v g0 g1 ha
      simp only at ha
      cases hv : deepGet v K with
      | str s =>
        cases hs : splitKeyValuePairs s listSep kvpSep [defaultKey] with
        | ret out =>
          simp only [hv, hs, Exec.ret.injEq] at ha
          simp only [kvpKeys, hv, hs]
          exact ha.symm
        | panic p => simp [hv, hs] at ha
      | nil => simp [hv] at ha
      | container c => simp [hv] at ha
      | other t => simp [hv] at ha
  exact ⟨C, by rw [hxs, hC], hg⟩

theorem kvpLoop_nodup (kvpSep : Str) (defaultKey : List Str) (items : List Str)
    (output out : GoMap Str) (h : kvpLoop kvpSep defaultKey items output = .ret out)
    (hnd : output.keys.Nodup) : out.keys.Nodup := by
  induction items generalizing output with
  | nil =>
    simp only [kvpLoop, Exec.ret.injEq] at h
    exact h ▸ hnd
  | cons it rest ih =>
    cases he : kvpEntry it kvpSep defaultKey with
    | panic p => simp [kvpLoop, he] at h
    | ret kv =>
      simp only [kvpLoop, he] at h
      exact ih _ h (GoMap.nodup_keys_set _ _ _ hnd)

theorem kvpKeys_nodup (ord : KeyOrder) (hord : ord.Valid) (deepGet : Value → Str → Value)
    (K listSep kvpSep defaultKey : Str) (v : Value) :
    (kvpKeys ord deepGet K listSep kvpSep defaultKey v).Nodup := by
  cases hv : deepGet v K with
  | str s =>
    cases hs : splitKeyValuePairs s listSep kvpSep [defaultKey] with
    | ret out =>
      simp only [kvpKeys, hv, hs]
      exact (hord _).nodup_iff.mpr (kvpLoop_nodup _ _ _ [] out hs List.nodup_nil)
    | panic p => simp [kvpKeys, hv, hs]
  | nil => simp [kvpKeys, hv]
  | container c => simp [kvpKeys, hv]
  | other t => simp [kvpKeys, hv]

/-! ## Order of the buckets -/

theorem flatMap_replicate_readsAt (C : List Value) (n : Value → Nat) :
    ∃ idx : List Nat,
      idx.Pairwise (· ≤ ·)
      ∧ ReadsAt C idx (C.flatMap (fun v => List.replicate (n v) v))
      ∧ ((∀ v ∈ C, n v ≤ 1) → idx.Pairwise (· < ·)) := by
  induction C with
  | nil => exact ⟨[], List.Pairwise.nil, rfl, fun _ => List.Pairwise.nil⟩
  | cons v rest ih =>
    obtain ⟨idx, hle, hread, hlt⟩ := ih
    refine ⟨List.replicate (n v) 0 ++ idx.map (· + 1), ?_, ?_, ?_⟩
    · rw [List.pairwise_append]
      refine ⟨List.pairwise_replicate.mpr (Or.inr (Nat.le_refl 0)), ?_, ?_⟩
      · rw [List.pairwise_map]
        exact hle.imp (fun h => Nat.succ_le_succ h)
      · intro a ha b _
        rw [(List.mem_replicate.mp ha).2]
        exact Nat.zero_le b
    · unfold ReadsAt at hread ⊢
      rw [List.flatMap_cons, List.map_append, List.map_append, List.map_replicate,
        List.map_replicate, List.map_map, ← hread]
      congr 1
      · rw [List.getElem?_cons_zero]
      · apply List.map_congr_left
        intro i _
        exact List.getElem?_cons_succ
    · intro h1
      rw [List.pairwise_append]
      refine ⟨List.pairwise_replicate.mpr (Or.inl (h1 v (List.mem_cons_self v rest))), ?_, ?_⟩
      · rw [List.pairwise_map]
        exact (hlt (fun u hu => h1 u (List.mem_cons_of_mem v hu))).imp
          (fun h => Nat.succ_lt_succ h)
      · intro a ha b hb
        rw [(List.mem_replicate.mp ha).2]
        obtain ⟨j, _, rfl⟩ := List.mem_map.mp hb
        exact Nat.succ_pos j

theorem bucket_foldl_readsAt (ks : Value → List Str) (C : List Value) (k : Str) :
    ∃ idx : List Nat,
      idx.Pairwise (· ≤ ·)
      ∧ ReadsAt C idx (bucket (C.foldl (fun g1 v => appendEach g1 (ks v) v) []) k)
      ∧ ((∀ v ∈ C, (ks v).count k ≤ 1) → idx.Pairwise (· < ·)) := by
  have hb : bucket (C.foldl (fun g1 v => appendEach g1 (ks v) v) ([] : Groups)) k
      = C.flatMap (fun v => List.replicate ((ks v).count k) v) := by
    rw [bucket_foldl_appendEach]
    rfl
  rw [hb]
  exact flatMap_replicate_readsAt C (fun v => (ks v).count k)

theorem pathKeys_count_le (deepGet : Value → Str → Value) (K : Str) (v : Value)
    (k : Str) : (pathKeys deepGet K v).count k ≤ 1 := by
  refine Nat.le_trans (List.count_le_length _ _) ?_
  cases hv : deepGet v K <;> simp [pathKeys, hv]

theorem labelKeys_count_le (label : Str) (v : Value) (k : Str) :
    (labelKeys label v).count k ≤ 1 := by
  refine Nat.le_trans (List.count_le_length _ _) ?_
  cases v with
  | container c => cases hl : c.Labels.get label <;> simp [labelKeys, hl]
  | nil => simp [labelKeys]
  | str s => simp [labelKeys]
  | other t => simp [labelKeys]

/-- C11: whenever `groupBy`, `groupByLabel`, `groupByMulti` or
`groupByMultiKeyValuePairs` returns a map, the input is a sequence `C` and
every bucket consists of the elements of `C` at a list of indices that is
strictly increasing for `groupBy`, `groupByLabel` and
`groupByMultiKeyValuePairs` (whatever the order in which the parsed keys are
visited), and non-decreasing for `groupByMulti`. -/
theorem buckets_in_traversal_order (ord : KeyOrder) (hord : ord.Valid)
    (deepGet : Value → Str → Value) (entries : Entries)
    (K label sep listSep kvpSep defaultKey : Str) :
    (∀ groups : Groups, groupBy deepGet entries K = .ret (some groups, none) →
      ∃ C : List Value, entries = .ofValues C ∧ ∀ k, ∃ idx : List Nat,
        idx.Pairwise (· < ·) ∧ ReadsAt C idx (bucket groups k))
    ∧ (∀ groups : Groups, groupByLabel entries label = .ret (some groups, none) →
      ∃ C : List Value, entries = .ofValues C ∧ ∀ k, ∃ idx : List Nat,
        idx.Pairwise (· < ·) ∧ ReadsAt C idx (bucket groups k))
    ∧ (∀ groups : Groups, groupByMulti deepGet entries K sep = .ret (some groups, none) →
      ∃ C : List Value, entries = .ofValues C ∧ ∀ k, ∃ idx : List Nat,
        idx.Pairwise (· ≤ ·) ∧ ReadsAt C idx (bucket groups k))
    ∧ (∀ groups : Groups,
        groupByMultiKeyValuePairs ord deepGet entries K listSep kvpSep defaultKey
          = .ret (some groups, none) →
      ∃ C : List Value, entries = .ofValues C ∧ ∀ k, ∃ idx : List Nat,
        idx.Pairwise (· < ·) ∧ ReadsAt C idx (bucket groups k)) := by
  refine ⟨?_, ?_, ?_, ?_⟩
  · intro groups h
    obtain ⟨C, hC, hg⟩ := groupBy_ret_foldl deepGet entries K groups h
    refine ⟨C, hC, fun k => ?_⟩
    obtain ⟨idx, _, hread, hlt⟩ := bucket_foldl_readsAt (pathKeys deepGet K) C k
    exact ⟨idx, hlt (fun v _ => pathKeys_count_le deepGet K v k), hg ▸ hread⟩
  · intro groups h
    obtain ⟨C, hC, hg⟩ := groupByLabel_ret_foldl entries label groups h
    refine ⟨C, hC, fun k => ?_⟩
    obtain ⟨idx, _, hread, hlt⟩ := bucket_foldl_readsAt (labelKeys label) C k
    exact ⟨idx, hlt (fun v _ => labelKeys_count_le label v k), hg ▸ hread⟩
  · intro groups h
    obtain ⟨C, hC, hg⟩ := groupByMulti_ret_foldl deepGet entries K sep groups h
    refine ⟨C, hC, fun k => ?_⟩
    obtain ⟨idx, hle, hread, _⟩ := bucket_foldl_readsAt (multiKeys deepGet K sep) C k
    exact ⟨idx, hle, hg ▸ hread⟩
  · intro groups h
    obtain ⟨C, hC, hg⟩ := groupByMultiKeyValuePairs_ret_foldl ord deepGet entries K
      listSep kvpSep defaultKey groups h
    refine ⟨C, hC, fun k => ?_⟩
    obtain ⟨idx, _, hread, hlt⟩ := bucket_foldl_readsAt
      (kvpKeys ord deepGet K listSep kvpSep defaultKey) C k
    refine ⟨idx, hlt (fun v _ => ?_), hg ▸ hread⟩
    rw [count_of_nodup _ (kvpKeys_nodup ord hord deepGet K listSep kvpSep defaultKey v) k]
    split <;> decide

/-- Witness of `buckets_in_traversal_order`: with the values `"a,a"`, `"b"`,
`"a"` split at `","`, bucket `a` of `groupByMulti` reads the collection at
indices that do not decrease. -/
theorem buckets_in_traversal_order_witness :
    ∃ idx : List Nat, idx.Pairwise (· ≤ ·)
      ∧ ReadsAt [.str "a,a".toList, .str "b".toList, .str "a".toList] idx
          [.str "a,a".toList, .str "a,a".toList, .str "a".toList] := by
  obtain ⟨_, _, h, _⟩ := buckets_in_traversal_order id (fun ks => List.Perm.refl ks)
    (fun v _ => v) (.ofValues [.str "a,a".toList, .str "b".toList, .str "a".toList])
    [] [] ",".toList [] [] []
  obtain ⟨C, hC, hk⟩ := h
    [("a".toList, [.str "a,a".toList, .str "a,a".toList, .str "a".toList]),
      ("b".toList, [.str "b".toList])] (by decide)
  injection hC with hC
  have hC2 := map_val_injective _ _ hC
  subst hC2
  exact hk "a".toList

/-! ## Keys and non-empty buckets -/

theorem appendEach_nonempty (items : List Str) (g : Groups) (v : Value)
    (h : ∀ k l, g.get k = some l → l ≠ []) :
    ∀ k l, (appendEach g items v).get k = some l → l ≠ [] := by
  induction items generalizing g with
  | nil => exact h
  | cons it rest ih =>
    have hstep : appendEach g (it :: rest) v
        = appendEach (g.set it (bucket g it ++ [v])) rest v := rfl
    rw [hstep]
    apply ih
    intro k l hk
    rw [GoMap.get_set] at hk
    by_cases he : it = k
    · simp only [he, if_true, Option.some.injEq] at hk
      rw [← hk]
      simp
    · simp only [he, if_false] at hk
      exact h k l hk

theorem foldl_appendEach_nonempty (ks : Value → List Str) (C : List Value) (g : Groups)
    (h : ∀ k l, g.get k = some l → l ≠ []) :
    ∀ k l, (C.foldl (fun g1 v => appendEach g1 (ks v) v) g).get k = some l → l ≠ [] := by
  induction C generalizing g with
  | nil => exact h
  | cons v rest ih =>
    simp only [List.foldl_cons]
    exact ih _ (appendEach_nonempty (ks v) g v h)

theorem foldl_appendEach_key_bound (ks : Value → List Str) (C : List Value) (k : Str)
    (hk : k ∈ (C.foldl (fun g1 v => appendEach g1 (ks v) v) ([] : Groups)).keys) :
    ∃ l, (C.foldl (fun g1 v => appendEach g1 (ks v) v) ([] : Groups)).get k = some l
      ∧ l ≠ [] := by
  have hne := (GoMap.mem_keys_iff _ k).mp hk
  cases hg : (C.foldl (fun g1 v => appendEach g1 (ks v) v) ([] : Groups)).get k with
  | none => exact absurd hg hne
  | some l =>
    refine ⟨l, rfl, foldl_appendEach_nonempty ks C [] ?_ k l hg⟩
    intro k1 l1 h1
    cases h1

/-- C12: whenever `groupBy`, `groupByLabel`, `groupByMulti` or
`groupByMultiKeyValuePairs` returns a map, every key of the map is bound to a
non-empty list. -/
theorem buckets_nonempty (ord : KeyOrder) (deepGet : Value → Str → Value)
    (entries : Entries) (K label sep listSep kvpSep defaultKey : Str) :
    (∀ groups : Groups, groupBy deepGet entries K = .ret (some groups, none) →
      ∀ k ∈ groups.keys, ∃ l, groups.get k = some l ∧ l ≠ [])
    ∧ (∀ groups : Groups, groupByLabel entries label = .ret (some groups, none) →
      ∀ k ∈ groups.keys, ∃ l, groups.get k = some l ∧ l ≠ [])
    ∧ (∀ groups : Groups, groupByMulti deepGet entries K sep = .ret (some groups, none) →
      ∀ k ∈ groups.keys, ∃ l, groups.get k = some l ∧ l ≠ [])
    ∧ (∀ groups : Groups,
        groupByMultiKeyValuePairs ord deepGet entries K listSep kvpSep defaultKey
          = .ret (some groups, none) →
      ∀ k ∈ groups.keys, ∃ l, groups.get k = some l ∧ l ≠ []) := by
  refine ⟨?_, ?_, ?_, ?_⟩
  · intro groups h k hk
    obtain ⟨C, _, hg⟩ := groupBy_ret_foldl deepGet entries K groups h
    subst hg
    exact foldl_appendEach_key_bound _ C k hk
  · intro groups h k hk
    obtain ⟨C, _, hg⟩ := groupByLabel_ret_foldl entries label groups h
    subst hg
    exact foldl_appendEach_key_bound _ C k hk
  · intro groups h k hk
    obtain ⟨C, _, hg⟩ := groupByMulti_ret_foldl deepGet entries K sep groups h
    subst hg
    exact foldl_appendEach_key_bound _ C k hk
  · intro groups h k hk
    obtain ⟨C, _, hg⟩ := groupByMultiKeyValuePairs_ret_foldl ord deepGet entries K
      listSep kvpSep defaultKey groups h
    subst hg
    exact foldl_appendEach_key_bound _ C k hk

/-- Witness of `buckets_nonempty`: the map of `groupByMulti` on the values
`"a,b"` and `"b"` binds `b` to a non-empty list. -/
theorem buckets_nonempty_witness :
    ∃ l, GoMap.get [("a".toList, [Value.str "a,b".toList]),
        ("b".toList, [Value.str "a,b".toList, Value.str "b".toList])] "b".toList = some l
      ∧ l ≠ [] := by
  obtain ⟨_, _, h, _⟩ := buckets_nonempty id (fun v _ => v)
    (.ofValues [.str "a,b".toList, .str "b".toList]) [] [] ",".toList [] [] []
  exact h [("a".toList, [Value.str "a,b".toList]),
    ("b".toList, [Value.str "a,b".toList, Value.str "b".toList])] (by decide)
    "b".toList (by decide)

theorem mem_pathKeys (deepGet : Value → Str → Value) (K : Str) (v : Value) (k : Str) :
    k ∈ pathKeys deepGet K v ↔ deepGet v K = Value.str k := by
  cases hv : deepGet v K with
  | str s =>
    simp only [pathKeys, hv, List.mem_singleton, Value.str.injEq]
    exact eq_comm
  | nil => simp [pathKeys, hv]
  | container c => simp [pathKeys, hv]
  | other t => simp [pathKeys, hv]

theorem mem_labelKeys (label : Str) (v : Value) (k : Str) :
    k ∈ labelKeys label v
      ↔ ∃ c, v = Value.container c ∧ c.Labels.get label = some k := by
  cases v with
  | container c =>
    cases hl : c.Labels.get label with
    | none => simp [labelKeys, hl]
    | some value =>
      simp only [labelKeys, hl, List.mem_singleton, Value.container.injEq,
        Option.some.injEq]
      constructor
      · intro h
        exact ⟨c, rfl, by rw [hl, h]⟩
      · rintro ⟨c1, rfl, h⟩
        rw [hl] at h
        exact (Option.some.inj h).symm
  | nil => simp [labelKeys]
  | str s => simp [labelKeys]
  | other t => simp [labelKeys]

theorem mem_multiKeys (deepGet : Value → Str → Value) (K sep : Str) (v : Value)
    (k : Str) :
    k ∈ multiKeys deepGet K sep v ↔ ∃ s, deepGet v K = Value.str s ∧ k ∈ split s sep := by
  cases hv : deepGet v K with
  | str s => simp [multiKeys, hv]
  | nil => simp [multiKeys, hv]
  | container c => simp [multiKeys, hv]
  | other t => simp [multiKeys, hv]

theorem mem_kvpKeys (ord : KeyOrder) (hord : ord.Valid) (deepGet : Value → Str → Value)
    (K listSep kvpSep defaultKey : Str) (v : Value) (k : Str) :
    k ∈ kvpKeys ord deepGet K listSep kvpSep defaultKey v
      ↔ ∃ s out, deepGet v K = Value.str s
          ∧ splitKeyValuePairs s listSep kvpSep [defaultKey] = .ret out
          ∧ k ∈ out.keys := by
  cases hv : deepGet v K with
  | str s =>
    cases hs : splitKeyValuePairs s listSep kvpSep [defaultKey] with
    | ret out =>
      simp only [kvpKeys, hv, hs, (hord out.keys).mem_iff, Value.str.injEq]
      constructor
      · intro h
        exact ⟨s, out, rfl, hs, h⟩
      · rintro ⟨s1, out1, rfl, h1, h2⟩
        rw [hs] at h1
        injection h1 with h1
        exact h1 ▸ h2
    | panic p =>
      simp only [kvpKeys, hv, hs, List.not_mem_nil, Value.str.injEq, false_iff]
      rintro ⟨s1, out1, rfl, h1, _⟩
      rw [hs] at h1
      cases h1
  | nil => simp [kvpKeys, hv]
  | container c => simp [kvpKeys, hv]
  | other t => simp [kvpKeys, hv]

theorem mem_keys_foldl_from_empty (ks : Value → List Str) (C : List Value) (k : Str) :
    k ∈ (C.foldl (fun g1 v => appendEach g1 (ks v) v) ([] : Groups)).keys
      ↔ ∃ v ∈ C, k ∈ ks v := by
  rw [mem_keys_foldl_appendEach]
  constructor
  · rintro (h | h)
    · cases h
    · exact h
  · exact Or.inr

/-- C13, the claim as stated fails: `groupByLabel` on a single container whose
label `l` has the empty string as value returns a map whose only key is the
empty string. -/
theorem empty_key_counterexample :
    groupByLabel (.ofValues [.container ⟨"c1".toList, [("l".toList, [])]⟩]) "l".toList
      = .ret (some [([], [.container ⟨"c1".toList, [("l".toList, [])]⟩])], none)
    ∧ ([] : Str) ∈ GoMap.keys
        [(([] : Str), [Value.container ⟨"c1".toList, [("l".toList, [])]⟩])] := by
  decide

/-- C13, amended: whenever one of the four functions returns a map, the empty
string is a key of the map exactly when some element yields it: its path
resolves to the empty string (`groupBy`), its label has the empty string as
value (`groupByLabel`), the empty string is an item of the split of its value
(`groupByMulti`), or a key of the map parsed from its value
(`groupByMultiKeyValuePairs`). -/
theorem empty_key_iff (ord : KeyOrder) (hord : ord.Valid)
    (deepGet : Value → Str → Value) (entries : Entries)
    (K label sep listSep kvpSep defaultKey : Str) :
    (∀ groups : Groups, groupBy deepGet entries K = .ret (some groups, none) →
      ∃ C : List Value, entries = .ofValues C
        ∧ (([] : Str) ∈ groups.keys ↔ ∃ v ∈ C, deepGet v K = Value.str []))
    ∧ (∀ groups : Groups, groupByLabel entries label = .ret (some groups, none) →
      ∃ C : List Value, entries = .ofValues C
        ∧ (([] : Str) ∈ groups.keys
            ↔ ∃ c, Value.container c ∈ C ∧ c.Labels.get label = some []))
    ∧ (∀ groups : Groups, groupByMulti deepGet entries K sep = .ret (some groups, none) →
      ∃ C : List Value, entries = .ofValues C
        ∧ (([] : Str) ∈ groups.keys
            ↔ ∃ v ∈ C, ∃ s, deepGet v K = Value.str s ∧ [] ∈ split s sep))
    ∧ (∀ groups : Groups,
        groupByMultiKeyValuePairs ord deepGet entries K listSep kvpSep defaultKey
          = .ret (some groups, none) →
      ∃ C : List Value, entries = .ofValues C
        ∧ (([] : Str) ∈ groups.keys
            ↔ ∃ v ∈ C, ∃ s out, deepGet v K = Value.str s
                ∧ splitKeyValuePairs s listSep kvpSep [defaultKey] = .ret out
                ∧ [] ∈ out.keys)) := by
  refine ⟨?_, ?_, ?_, ?_⟩
  · intro groups h
    obtain ⟨C, hC, hg⟩ := groupBy_ret_foldl deepGet entries K groups h
    refine ⟨C, hC, ?_⟩
    rw [hg, mem_keys_foldl_from_empty]
    simp only [mem_pathKeys]
  · intro groups h
    obtain ⟨C, hC, hg⟩ := groupByLabel_ret_foldl entries label groups h
    refine ⟨C, hC, ?_⟩
    rw [hg, mem_keys_foldl_from_empty]
    simp only [mem_labelKeys]
    constructor
    · rintro ⟨v, hv, c, rfl, hc⟩
      exact ⟨c, hv, hc⟩
    · rintro ⟨c, hv, hc⟩
      exact ⟨_, hv, c, rfl, hc⟩
  · intro groups h
    obtain ⟨C, hC, hg⟩ := groupByMulti_ret_foldl deepGet entries K sep groups h
    refine ⟨C, hC, ?_⟩
    rw [hg, mem_keys_foldl_from_empty]
    simp only [mem_multiKeys]
  · intro groups h
    obtain ⟨C, hC, hg⟩ := groupByMultiKeyValuePairs_ret_foldl ord deepGet entries K
      listSep kvpSep defaultKey groups h
    refine ⟨C, hC, ?_⟩
    rw [hg, mem_keys_foldl_from_empty]
    simp only [mem_kvpKeys ord hord]

/-- Witness of `empty_key_iff`: the map of `groupByMulti` on the value `"a,,b"`
split at `","` has the empty string as a key, and `""` is an item of the
split. -/
theorem empty_key_iff_witness :
    ([] : Str) ∈ GoMap.keys [("a".toList, [Value.str "a,,b".toList]),
        (([] : Str), [Value.str "a,,b".toList]), ("b".toList, [Value.str "a,,b".toList])]
    ↔ ∃ v ∈ [Value.str "a,,b".toList],
        ∃ s, (fun (v : Value) (_ : Str) => v) v [] = Value.str s
          ∧ [] ∈ split s ",".toList := by
  obtain ⟨_, _, h, _⟩ := empty_key_iff id (fun ks => List.Perm.refl ks) (fun v _ => v)
    (.ofValues [.str "a,,b".toList]) [] [] ",".toList [] [] []
  obtain ⟨C, hC, hk⟩ := h [("a".toList, [Value.str "a,,b".toList]),
    (([] : Str), [Value.str "a,,b".toList]), ("b".toList, [Value.str "a,,b".toList])]
    (by decide)
  injection hC with hC
  have hC2 := map_val_injective _ _ hC
  subst hC2
  exact hk

/-! ## The empty collection -/

/-- C14: on the empty collection, whatever the path, label and separators,
`groupBy`, `groupByLabel`, `groupByMulti` and `groupByMultiKeyValuePairs`
return the empty map and no error, and `groupByKeys` returns the empty list
and no error. -/
theorem empty_collection (ord : KeyOrder) (hord : ord.Valid)
    (deepGet : Value → Str → Value) (K label sep listSep kvpSep defaultKey : Str) :
    groupBy deepGet (.seq []) K = .ret (some [], none)
    ∧ groupByLabel (.seq []) label = .ret (some [], none)
    ∧ groupByMulti deepGet (.seq []) K sep = .ret (some [], none)
    ∧ groupByMultiKeyValuePairs ord deepGet (.seq []) K listSep kvpSep defaultKey
        = .ret (some [], none)
    ∧ groupByKeys ord deepGet (.seq []) K = .ret (some [], none) := by
  refine ⟨rfl, rfl, rfl, rfl, ?_⟩
  have h0 : ord [] = [] := List.Perm.eq_nil (hord [])
  show Exec.ret (some ((ord (GoMap.keys ([] : Groups))).foldl (fun ret k => ret ++ [k]) []),
    none) = _
  have hk : GoMap.keys ([] : Groups) = [] := rfl
  rw [hk, h0]
  rfl

/-- Witness of `empty_collection`: `groupBy([], "anything")` is the empty map,
and `groupByKeys`, visiting keys in reverse, gives the empty list. -/
theorem empty_collection_witness :
    groupBy (fun v _ => v) (.seq []) "anything".toList = .ret (some [], none)
    ∧ groupByKeys List.reverse (fun v _ => v) (.seq []) "anything".toList
        = .ret (some [], none) := by
  obtain ⟨h1, _, _, _, h5⟩ := empty_collection List.reverse
    (fun ks => List.reverse_perm ks) (fun v _ => v) "anything".toList [] [] [] [] []
  exact ⟨h1, h5⟩

/-! ## A value that is not a string -/

/-- The loop panics with the failed type assertion at the first element whose
path resolves to a value that is neither nil nor a string, when no element
before it is a nil pointer and the assignment returns on the strings before
it. -/
theorem groupLoop_panic_first (deepGet : Value → Str → Value) (K : Str)
    (addEntry : Groups → Value → Value → Exec Groups)
    (pre : List Value) (v : Value) (post : List Slot) (g : Groups)
    (hpre : ∀ u ∈ pre, deepGet u K = Value.nil
      ∨ ∀ g0 : Groups, ∃ g1, addEntry g0 (deepGet u K) u = .ret g1)
    (hn : deepGet v K ≠ Value.nil)
    (hv : ∀ g0 : Groups, addEntry g0 (deepGet v K) v
      = .panic (.typeAssertion (deepGet v K))) :
    groupLoop (fun u => (deepGet u K, none)) addEntry
        (pre.map Slot.val ++ Slot.val v :: post) g
      = .panic (.typeAssertion (deepGet v K)) := by
  induction pre generalizing g with
  | nil =>
    simp only [List.map_nil, List.nil_append, groupLoop, ne_eq, hn, not_false_eq_true,
      if_true, hv g]
  | cons u rest ih =>
    have ih2 := fun g0 => ih g0 (fun w hw => hpre w (List.mem_cons_of_mem u hw))
    rcases hpre u (List.mem_cons_self u rest) with h | h
    · simp only [List.map_cons, List.cons_append, groupLoop, h, ne_eq, not_true_eq_false,
        if_false]
      exact ih2 g
    · obtain ⟨g1, hg1⟩ := h g
      by_cases hu : deepGet u K = Value.nil
      · simp only [List.map_cons, List.cons_append, groupLoop, hu, ne_eq,
          not_true_eq_false, if_false]
        exact ih2 g
      · simp only [List.map_cons, List.cons_append, groupLoop, ne_eq, hu,
          not_false_eq_true, if_true, hg1]
        exact ih2 g1

/-- C15, the claim as stated fails in two ways.  With an empty `kvpSep`,
`groupByMultiKeyValuePairs` on the collection of the string `""` and a
non-string value, grouped by the empty path with list separator `","`, panics
at the first element with an index out of range, not at the second one with a
failed type assertion.  And `groupBy` on a nil pointer followed by a non-string
value panics when it reads the nil pointer, not with a failed type assertion
at the non-string value. -/
theorem not_string_panic_counterexample :
    (groupByMultiKeyValuePairs (fun ks => ks) (fun v _ => v)
        (.seq [.val (.str []), .val (.other 1)]) [] ",".toList [] []
      = .panic (.indexOutOfRange 0 0)
    ∧ groupByMultiKeyValuePairs (fun ks => ks) (fun v _ => v)
        (.seq [.val (.str []), .val (.other 1)]) [] ",".toList [] []
      ≠ .panic (.typeAssertion (.other 1)))
    ∧ (groupBy (fun v _ => v) (.seq [.nilPtr, .val (.other 1)]) []
      = .panic .zeroValueInterface
    ∧ groupBy (fun v _ => v) (.seq [.nilPtr, .val (.other 1)]) []
      ≠ .panic (.typeAssertion (.other 1))) := by
  refine ⟨⟨?_, ?_⟩, ⟨?_, ?_⟩⟩ <;> decide

/-- C15, amended: let `v` be the first element of the collection whose path
resolves to a value that is neither nil nor a string, and let no element before
`v` be a nil pointer.  Then `groupBy`, `groupByKeys` and `groupByMulti` return
neither a map nor an error: they panic with the failed type assertion on the
value of `v`, whatever follows `v`.  So does `groupByMultiKeyValuePairs` when
`splitKeyValuePairs` returns on every string that the path of an element before
`v` resolves to, which is the case whenever `kvpSep` is non-empty. -/
theorem not_string_panic (ord : KeyOrder) (deepGet : Value → Str → Value)
    (pre : List Value) (v : Value) (post : List Slot)
    (K sep listSep kvpSep defaultKey : Str)
    (hpre : ∀ u ∈ pre, deepGet u K = Value.nil ∨ (deepGet u K).isStr = true)
    (hvn : deepGet v K ≠ Value.nil) (hvs : (deepGet v K).isStr = false) :
    groupBy deepGet (.seq (pre.map Slot.val ++ Slot.val v :: post)) K
      = .panic (.typeAssertion (deepGet v K))
    ∧ groupByKeys ord deepGet (.seq (pre.map Slot.val ++ Slot.val v :: post)) K
      = .panic (.typeAssertion (deepGet v K))
    ∧ groupByMulti deepGet (.seq (pre.map Slot.val ++ Slot.val v :: post)) K sep
      = .panic (.typeAssertion (deepGet v K))
    ∧ ((∀ u ∈ pre, ∀ s, deepGet u K = Value.str s →
          ∃ out, splitKeyValuePairs s listSep kvpSep [defaultKey] = .ret out) →
        groupByMultiKeyValuePairs ord deepGet
            (.seq (pre.map Slot.val ++ Slot.val v :: post)) K listSep kvpSep defaultKey
          = .panic (.typeAssertion (deepGet v K)))
    ∧ (kvpSep ≠ [] →
        groupByMultiKeyValuePairs ord deepGet
            (.seq (pre.map Slot.val ++ Slot.val v :: post)) K listSep kvpSep defaultKey
          = .panic (.typeAssertion (deepGet v K))) := by
  have hsingle : ∀ g0 : Groups, addSingle g0 (deepGet v K) v
      = .panic (.typeAssertion (deepGet v K)) := by
    intro g0
    cases hd : deepGet v K with
    | str s => rw [hd] at hvs; cases hvs
    | nil => rfl
    | container c => rfl
    | other t => rfl
  have hgb : groupLoop (fun u => (deepGet u K, none)) addSingle
      (pre.map Slot.val ++ Slot.val v :: post) []
      = .panic (.typeAssertion (deepGet v K)) := by
    apply groupLoop_panic_first deepGet K addSingle pre v post [] _ hvn hsingle
    intro u hu
    rcases hpre u hu with h | h
    · exact Or.inl h
    · obtain ⟨s, hs⟩ := (Value.isStr_iff _).mp h
      exact Or.inr (fun g0 => ⟨_, by rw [hs]; rfl⟩)
  have hkv : (∀ u ∈ pre, ∀ s, deepGet u K = Value.str s →
        ∃ out, splitKeyValuePairs s listSep kvpSep [defaultKey] = .ret out) →
      groupByMultiKeyValuePairs ord deepGet
          (.seq (pre.map Slot.val ++ Slot.val v :: post)) K listSep kvpSep defaultKey
        = .panic (.typeAssertion (deepGet v K)) := by
    intro hsplit
    show groupLoop (fun u => (deepGet u K, none)) _
      (pre.map Slot.val ++ Slot.val v :: post) [] = _
    apply groupLoop_panic_first deepGet K _ pre v post [] _ hvn
    · intro g0
      cases hd : deepGet v K with
      | str s => rw [hd] at hvs; cases hvs
      | nil => rfl
      | container c => rfl
      | other t => rfl
    · intro u hu
      rcases hpre u hu with h | h
      · exact Or.inl h
      · obtain ⟨s, hs⟩ := (Value.isStr_iff _).mp h
        obtain ⟨out, hout⟩ := hsplit u hu s hs
        exact Or.inr (fun g0 => ⟨appendEach g0 (ord out.keys) u, by simp only [hs, hout]⟩)
  refine ⟨hgb, ?_, ?_, hkv, ?_⟩
  · show (match groupLoop (fun u => (deepGet u K, none)) addSingle
        (pre.map Slot.val ++ Slot.val v :: post) [] with
      | .panic p => Exec.panic p
      | .ret (_, some err) => .ret (none, some err)
      | .ret (keys, none) =>
        .ret (some ((ord (keys.getD []).keys).foldl (fun ret k => ret ++ [k]) []), none))
      = _
    rw [hgb]
  · show groupLoop (fun u => (deepGet u K, none)) _
      (pre.map Slot.val ++ Slot.val v :: post) [] = _
    apply groupLoop_panic_first deepGet K _ pre v post [] _ hvn
    · intro g0
      cases hd : deepGet v K with
      | str s => rw [hd] at hvs; cases hvs
      | nil => rfl
      | container c => rfl
      | other t => rfl
    · intro u hu
      rcases hpre u hu with h | h
      · exact Or.inl h
      · obtain ⟨s, hs⟩ := (Value.isStr_iff _).mp h
        exact Or.inr (fun g0 => ⟨_, by rw [hs]⟩)
  · intro hne
    apply hkv
    intro u _ s _
    obtain ⟨out, hout, _⟩ := splitKeyValuePairs_total s listSep kvpSep [defaultKey] hne
    exact ⟨out, hout⟩

/-- Witness of `not_string_panic`: `groupBy` panics at the third element, the
first whose value is not a string, whatever follows it; and with the empty
`kvpSep`, `groupByMultiKeyValuePairs` panics with the failed type assertion on
the collection of the single value `1`. -/
theorem not_string_panic_witness :
    groupBy (fun v _ => v)
        (.seq ([Value.str "a".toList, .nil].map Slot.val
          ++ Slot.val (.other 3) :: [.val (.other 4), .nilPtr])) []
      = .panic (.typeAssertion (.other 3))
    ∧ groupByMultiKeyValuePairs (fun ks => ks) (fun v _ => v)
        (.seq (([] : List Value).map Slot.val ++ Slot.val (.other 1) :: [])) []
        ",".toList [] [] = .panic (.typeAssertion (.other 1)) := by
  constructor
  · exact (not_string_panic (fun ks => ks) (fun v _ => v)
      [.str "a".toList, .nil] (.other 3) [.val (.other 4), .nilPtr] [] [] [] [] []
      (by decide) (by decide) (by decide)).1
  · exact (not_string_panic (fun ks => ks) (fun v _ => v)
      [] (.other 1) [] [] [] ",".toList [] []
      (by decide) (by decide) (by decide)).2.2.2.1 (fun u hu => (by cases hu))

/-! ## The engine `generalizedGroupBy` -/

theorem groupLoop_eq_foldAssign (getValue : Value → Value × Option Error)
    (addEntry : Groups → Value → Value → Exec Groups) (C : List Value) (g : Groups)
    (h : ∀ v ∈ C, (getValue v).2 = none) :
    groupLoop getValue addEntry (C.map Slot.val) g
      = match foldAssign addEntry
          ((C.map (fun v => ((getValue v).1, v))).filter
            (fun p => decide (p.1 ≠ Value.nil))) g with
        | .ret groups => .ret (some groups, none)
        | .panic p => .panic p := by
  induction C generalizing g with
  | nil => rfl
  | cons v rest ih =>
    have h0 := h v (List.mem_cons_self v rest)
    have ih2 := fun g0 => ih g0 (fun u hu => h u (List.mem_cons_of_mem v hu))
    rcases hgv : getValue v with ⟨value, e⟩
    rw [hgv] at h0
    simp only at h0
    subst h0
    by_cases hn : value = Value.nil
    · simp only [groupLoop, hgv, hn, ne_eq, not_true_eq_false, if_false, List.map_cons,
        List.filter_cons, decide_False, Bool.false_eq_true]
      exact ih2 g
    · simp only [groupLoop, hgv, ne_eq, hn, not_false_eq_true, if_true, List.map_cons,
        List.filter_cons, decide_True, foldAssign]
      cases addEntry g value v with
      | panic p => rfl
      | ret g1 => exact ih2 g1

theorem groupLoop_error_first (getValue : Value → Value × Option Error)
    (addEntry : Groups → Value → Value → Exec Groups)
    (pre : List Value) (v : Value) (post : List Slot) (err : Error) (g : Groups)
    (hpre : ∀ u ∈ pre, (getValue u).2 = none) (hv : (getValue v).2 = some err) :
    groupLoop getValue addEntry (pre.map Slot.val ++ Slot.val v :: post) g
      = match foldAssign addEntry
          ((pre.map (fun u => ((getValue u).1, u))).filter
            (fun p => decide (p.1 ≠ Value.nil))) g with
        | .ret _ => .ret (none, some err)
        | .panic p => .panic p := by
  induction pre generalizing g with
  | nil =>
    rcases hgv : getValue v with ⟨value, e⟩
    rw [hgv] at hv
    simp only at hv
    subst hv
    simp only [List.nil_append, groupLoop, hgv, List.map_nil, List.filter_nil, foldAssign]
  | cons u rest ih =>
    have h0 := hpre u (List.mem_cons_self u rest)
    have ih2 := fun g0 => ih g0 (fun w hw => hpre w (List.mem_cons_of_mem u hw))
    rcases hgu : getValue u with ⟨value, e⟩
    rw [hgu] at h0
    simp only at h0
    subst h0
    by_cases hn : value = Value.nil
    · simp only [List.cons_append, groupLoop, hgu, hn, ne_eq, not_true_eq_false, if_false,
        List.map_cons, List.filter_cons, decide_False, Bool.false_eq_true]
      exact ih2 g
    · simp only [List.cons_append, groupLoop, hgu, ne_eq, hn, not_false_eq_true, if_true,
        List.map_cons, List.filter_cons, decide_True, foldAssign]
      cases addEntry g value u with
      | panic p => rfl
      | ret g1 => exact ih2 g1

theorem foldAssign_pure (a : Groups → Value → Value → Groups)
    (l : List (Value × Value)) (g : Groups) :
    foldAssign (fun g0 value v => .ret (a g0 value v)) l g
      = .ret (l.foldl (fun g0 p => a g0 p.1 p.2) g) := by
  induction l generalizing g with
  | nil => rfl
  | cons p rest ih =>
    obtain ⟨value, v⟩ := p
    simp only [foldAssign, List.foldl_cons]
    exact ih _

/-- C16, the claim as stated fails on a sequence with a nil pointer element:
with the extractor of `groupBy` on the empty path, which fails on no element,
and the assignment of `groupBy`, `generalizedGroupBy` on the slice of a pointer
to `"a"` and a nil pointer does not return the fold over its elements: it
panics when it reads the nil pointer element. -/
theorem generalizedGroupBy_spec_counterexample :
    generalizedGroupBy "groupBy".toList (.seq [.val (.str "a".toList), .nilPtr])
        (fun v => (v, none)) addSingle
      = .panic .zeroValueInterface
    ∧ ¬ ∃ r, generalizedGroupBy "groupBy".toList
        (.seq [.val (.str "a".toList), .nilPtr]) (fun v => (v, none)) addSingle
          = .ret r := by
  constructor
  · decide
  · rintro ⟨r, h⟩
    have h2 : generalizedGroupBy "groupBy".toList
        (.seq [.val (.str "a".toList), .nilPtr]) (fun v => (v, none)) addSingle
        = .panic .zeroValueInterface := by decide
    rw [h2] at h
    cases h

/-- C16, amended: for every extractor and assignment function: (1) on a
sequence without nil pointer elements on which the extractor fails on no
element, `generalizedGroupBy` returns, without error, the map obtained by
folding the assignment, in index order and from the empty map, over exactly the
elements whose extracted value is not nil (and it panics if the assignment
panics in that fold); (2) for an assignment that always returns, this is the
plain left fold; (3) when the extractor fails on an element, on no element
before it, and no element before it is a nil pointer, the result is the nil map
with that error, whatever the later elements are (unless the assignment
panicked before); (4) with an assignment that always returns, it is the nil map
with that error; (5) when the collection adapter rejects the input, its error
is returned with the nil map. -/
theorem generalizedGroupBy_spec (funcName : Str)
    (getValue : Value → Value × Option Error)
    (addEntry : Groups → Value → Value → Exec Groups) :
    (∀ C : List Value, (∀ v ∈ C, (getValue v).2 = none) →
      generalizedGroupBy funcName (.ofValues C) getValue addEntry
        = match foldAssign addEntry
            ((C.map (fun v => ((getValue v).1, v))).filter
              (fun p => decide (p.1 ≠ Value.nil))) [] with
          | .ret groups => .ret (some groups, none)
          | .panic p => .panic p)
    ∧ (∀ (a : Groups → Value → Value → Groups) (C : List Value),
        (∀ v ∈ C, (getValue v).2 = none) →
        generalizedGroupBy funcName (.ofValues C) getValue
            (fun g0 value v => .ret (a g0 value v))
          = .ret (some (((C.map (fun v => ((getValue v).1, v))).filter
              (fun p => decide (p.1 ≠ Value.nil))).foldl
                (fun g0 p => a g0 p.1 p.2) []), none))
    ∧ (∀ (pre : List Value) (v : Value) (post : List Slot) (err : Error),
        (∀ u ∈ pre, (getValue u).2 = none) → (getValue v).2 = some err →
        generalizedGroupBy funcName (.seq (pre.map Slot.val ++ Slot.val v :: post))
            getValue addEntry
          = match foldAssign addEntry
              ((pre.map (fun u => ((getValue u).1, u))).filter
                (fun p => decide (p.1 ≠ Value.nil))) [] with
            | .ret _ => .ret (none, some err)
            | .panic p => .panic p)
    ∧ (∀ (a : Groups → Value → Value → Groups) (pre : List Value) (v : Value)
        (post : List Slot) (err : Error),
        (∀ u ∈ pre, (getValue u).2 = none) → (getValue v).2 = some err →
        generalizedGroupBy funcName (.seq (pre.map Slot.val ++ Slot.val v :: post))
            getValue (fun g0 value v => .ret (a g0 value v))
          = .ret (none, some err))
    ∧ (∀ (entries : Entries) (err : Error),
        getArrayValues funcName entries = .error err →
        generalizedGroupBy funcName entries getValue addEntry = .ret (none, some err)) := by
  refine ⟨?_, ?_, ?_, ?_, ?_⟩
  · intro C h
    exact groupLoop_eq_foldAssign getValue addEntry C [] h
  · intro a C h
    have h1 := groupLoop_eq_foldAssign getValue (fun g0 value v => .ret (a g0 value v)) C [] h
    rw [foldAssign_pure] at h1
    exact h1
  · intro pre v post err hpre hv
    exact groupLoop_error_first getValue addEntry pre v post err [] hpre hv
  · intro a pre v post err hpre hv
    have h1 := groupLoop_error_first getValue (fun g0 value v => .ret (a g0 value v))
      pre v post err [] hpre hv
    rw [foldAssign_pure] at h1
    exact h1
  · intro entries err h
    simp only [generalizedGroupBy, h]

/-- Witness of `generalizedGroupBy_spec`: with the extractor and assignment of
`groupByLabel`, a sequence whose second element is not a container gives the
nil map and the error of that element, also with a nil pointer after it; a
sequence of containers gives the fold. -/
theorem generalizedGroupBy_spec_witness :
    generalizedGroupBy "groupByLabel".toList
        (.seq ([Value.container ⟨"c1".toList, [("l".toList, "x".toList)]⟩].map Slot.val
          ++ Slot.val (.other 7) :: [.nilPtr]))
        (getLabel "l".toList) addSingle
      = .ret (none, some (.errorf groupByLabelFormat [.other 7]))
    ∧ generalizedGroupBy "groupByLabel".toList
        (.ofValues [.container ⟨"c1".toList, [("l".toList, "x".toList)]⟩,
          .container ⟨"c2".toList, []⟩])
        (getLabel "l".toList) addSingle
      = .ret (some [("x".toList,
          [.container ⟨"c1".toList, [("l".toList, "x".toList)]⟩])], none) := by
  obtain ⟨h1, _, h3, _, _⟩ := generalizedGroupBy_spec "groupByLabel".toList
    (getLabel "l".toList) addSingle
  constructor
  · rw [h3 [.container ⟨"c1".toList, [("l".toList, "x".toList)]⟩] (.other 7) [.nilPtr]
      (.errorf groupByLabelFormat [.other 7]) (by decide) rfl]
    rfl
  · rw [h1 _ (by decide)]
    rfl

/-! ## Totality of `splitKeyValuePairs` -/

theorem kvpEntry_empty_sep_short (item : Str) (defaultKey : List Str)
    (h : item.length < 2) :
    kvpEntry item [] defaultKey = .panic (.indexOutOfRange item.length item.length) := by
  cases item with
  | nil => rfl
  | cons c t =>
    cases t with
    | nil => rfl
    | cons d t2 =>
      simp only [List.length_cons] at h
      omega

/-- C17: for a given `kvpSep`, `splitKeyValuePairs` returns a map for every
input, list separator and default key exactly when `kvpSep` is not the empty
string.  With the empty `kvpSep`, an item of fewer than two characters makes
the indexed read go out of range, and so does the input `""` with any
non-empty list separator. -/
theorem splitKeyValuePairs_total_iff (kvpSep : Str) :
    ((∀ (input listSep : Str) (defaultKey : List Str),
        ∃ output, splitKeyValuePairs input listSep kvpSep defaultKey = .ret output)
      ↔ kvpSep ≠ [])
    ∧ (∀ (item : Str) (defaultKey : List Str), item.length < 2 →
        kvpEntry item [] defaultKey
          = .panic (.indexOutOfRange item.length item.length))
    ∧ (∀ (listSep : Str) (defaultKey : List Str), listSep ≠ [] →
        splitKeyValuePairs [] listSep [] defaultKey = .panic (.indexOutOfRange 0 0)) := by
  have hpanic : ∀ (listSep : Str) (defaultKey : List Str), listSep ≠ [] →
      splitKeyValuePairs [] listSep [] defaultKey = .panic (.indexOutOfRange 0 0) := by
    intro listSep defaultKey hl
    have hs : split [] listSep = [[]] := by
      simp only [split, hl, if_false]
      rfl
    simp only [splitKeyValuePairs, hs, kvpLoop]
    rfl
  refine ⟨⟨?_, ?_⟩, kvpEntry_empty_sep_short, hpanic⟩
  · intro h hk
    subst hk
    obtain ⟨output, ho⟩ := h [] ",".toList []
    rw [hpanic ",".toList [] (by decide)] at ho
    cases ho
  · intro hne input listSep defaultKey
    obtain ⟨output, ho, _⟩ := splitKeyValuePairs_total input listSep kvpSep defaultKey hne
    exact ⟨output, ho⟩

/-- Witness of `splitKeyValuePairs_total_iff`: with the empty `kvpSep` the
one-character item `"a"` makes the read of index 1 go out of range, and the
input `""` split at `","` the read of index 0. -/
theorem splitKeyValuePairs_total_iff_witness :
    kvpEntry "a".toList [] [] = .panic (.indexOutOfRange 1 1)
    ∧ splitKeyValuePairs [] ",".toList [] ["d".toList] = .panic (.indexOutOfRange 0 0) := by
  obtain ⟨_, h2, h3⟩ := splitKeyValuePairs_total_iff []
  exact ⟨h2 "a".toList [] (by decide), h3 ",".toList ["d".toList] (by decide)⟩

/-! ## Independence of the order of map iteration -/

theorem GoMap.Same.bucket_eq {g1 g2 : Groups} (h : GoMap.Same g1 g2) (k : Str) :
    bucket g1 k = bucket g2 k := by
  unfold bucket
  rw [h k]

theorem get_eq_some_bucket (g : Groups) (k : Str) (h : k ∈ g.keys) :
    g.get k = some (bucket g k) := by
  have hne := (GoMap.mem_keys_iff g k).mp h
  cases hg : g.get k with
  | none => exact absurd hg hne
  | some l => simp [bucket, hg]

theorem GoMap.Same.mem_keys_same {g1 g2 : Groups} (h : GoMap.Same g1 g2) (k : Str) :
    k ∈ g1.keys ↔ k ∈ g2.keys := by
  rw [GoMap.mem_keys_iff, GoMap.mem_keys_iff, h k]

theorem same_appendEach (g1 g2 : Groups) (hs : GoMap.Same g1 g2) (ks1 ks2 : List Str)
    (hp : ks1.Perm ks2) (v : Value) :
    GoMap.Same (appendEach g1 ks1 v) (appendEach g2 ks2 v) := by
  intro k
  have hb : bucket (appendEach g1 ks1 v) k = bucket (appendEach g2 ks2 v) k := by
    rw [bucket_appendEach, bucket_appendEach, hs.bucket_eq k, List.count_eq_countP,
      hp.countP_eq, ← List.count_eq_countP]
  have hk : k ∈ (appendEach g1 ks1 v).keys ↔ k ∈ (appendEach g2 ks2 v).keys := by
    rw [mem_keys_appendEach, mem_keys_appendEach, hs.mem_keys_same k, hp.mem_iff]
  by_cases h1 : k ∈ (appendEach g1 ks1 v).keys
  · rw [get_eq_some_bucket _ k h1, get_eq_some_bucket _ k (hk.mp h1), hb]
  · have h2 : k ∉ (appendEach g2 ks2 v).keys := fun h => h1 (hk.mpr h)
    have e1 : (appendEach g1 ks1 v).get k = none := by
      by_contra hne
      exact h1 ((GoMap.mem_keys_iff _ k).mpr hne)
    have e2 : (appendEach g2 ks2 v).get k = none := by
      by_contra hne
      exact h2 ((GoMap.mem_keys_iff _ k).mpr hne)
    rw [e1, e2]

/-- Two runs of the loop from the same map, with assignment functions that
agree up to the identity of maps, have the same outcome. -/
theorem groupLoop_sameOutcome (getValue : Value → Value × Option Error)
    (ae1 ae2 : Groups → Value → Value → Exec Groups)
    (hae : ∀ (g1 g2 : Groups) (value v : Value), GoMap.Same g1 g2 →
      (∃ a b, ae1 g1 value v = .ret a ∧ ae2 g2 value v = .ret b ∧ GoMap.Same a b)
      ∨ ∃ p, ae1 g1 value v = .panic p ∧ ae2 g2 value v = .panic p)
    (xs : List Slot) (g1 g2 : Groups) (hs : GoMap.Same g1 g2) :
    SameOutcome (groupLoop getValue ae1 xs g1) (groupLoop getValue ae2 xs g2) := by
  induction xs generalizing g1 g2 with
  | nil => exact ⟨hs, rfl⟩
  | cons x rest ih =>
    cases x with
    | nilPtr => exact rfl
    | val v =>
      rcases hgv : getValue v with ⟨value, e⟩
      cases e with
      | some err =>
        simp only [groupLoop, hgv]
        rfl
      | none =>
        by_cases hn : value = Value.nil
        · simp only [groupLoop, hgv, hn, ne_eq, not_true_eq_false, if_false]
          exact ih g1 g2 hs
        · simp only [groupLoop, hgv, ne_eq, hn, not_false_eq_true, if_true]
          rcases hae g1 g2 value v hs with ⟨a, b, ha, hb, hab⟩ | ⟨p, ha, hb⟩
          · rw [ha, hb]
            exact ih a b hab
          · rw [ha, hb]
            rfl

/-- C18: the outcome of `groupByMultiKeyValuePairs` does not depend on the
order in which the keys of the parsed map are visited: for two orders, both
calls panic with the same panic, or both return the same error, or both return
a map, and then the two maps have the same keys, each bound to the same list
(same elements, same order). -/
theorem groupByMultiKeyValuePairs_order_independent (ord1 ord2 : KeyOrder)
    (h1 : ord1.Valid) (h2 : ord2.Valid) (deepGet : Value → Str → Value)
    (entries : Entries) (K listSep kvpSep defaultKey : Str) :
    SameOutcome
      (groupByMultiKeyValuePairs ord1 deepGet entries K listSep kvpSep defaultKey)
      (groupByMultiKeyValuePairs ord2 deepGet entries K listSep kvpSep defaultKey) := by
  cases entries with
  | notSeq x => exact rfl
  | seq C =>
    show SameOutcome (groupLoop (fun v => (deepGet v K, none)) _ C [])
      (groupLoop (fun v => (deepGet v K, none)) _ C [])
    apply groupLoop_sameOutcome
    · intro g1 g2 value v hs
      cases value with
      | str s =>
        cases hsp : splitKeyValuePairs s listSep kvpSep [defaultKey] with
        | ret out =>
          left
          refine ⟨appendEach g1 (ord1 out.keys) v, appendEach g2 (ord2 out.keys) v,
            by simp only [hsp], by simp only [hsp], ?_⟩
          exact same_appendEach g1 g2 hs _ _ ((h1 out.keys).trans (h2 out.keys).symm) v
        | panic p => exact Or.inr ⟨p, by simp only [hsp], by simp only [hsp]⟩
      | nil => exact Or.inr ⟨_, rfl, rfl⟩
      | container c => exact Or.inr ⟨_, rfl, rfl⟩
      | other t => exact Or.inr ⟨_, rfl, rfl⟩
    · intro k
      rfl

/-- Witness of `groupByMultiKeyValuePairs_order_independent`: the keys of
`"a=1,b=2"` and `"b=3,a=4"` visited in order and in reverse. -/
theorem groupByMultiKeyValuePairs_order_independent_witness :
    SameOutcome
      (groupByMultiKeyValuePairs (fun ks => ks) (fun v _ => v)
        (.ofValues [.str "a=1,b=2".toList, .str "b=3,a=4".toList]) []
        ",".toList "=".toList [])
      (groupByMultiKeyValuePairs List.reverse (fun v _ => v)
        (.ofValues [.str "a=1,b=2".toList, .str "b=3,a=4".toList]) []
        ",".toList "=".toList []) :=
  groupByMultiKeyValuePairs_order_independent (fun ks => ks) List.reverse
    (fun ks => List.Perm.refl ks) (fun ks => List.reverse_perm ks) (fun v _ => v)
    (.ofValues [.str "a=1,b=2".toList, .str "b=3,a=4".toList]) [] ",".toList
    "=".toList []

/-! ## `groupByMulti` without a separator in the values -/

theorem groupLoop_congr (getValue : Value → Value × Option Error)
    (ae1 ae2 : Groups → Value → Value → Exec Groups) (xs : List Slot) (g : Groups)
    (h : ∀ v, Slot.val v ∈ xs →
      ∀ g0 : Groups, ae1 g0 (getValue v).1 v = ae2 g0 (getValue v).1 v) :
    groupLoop getValue ae1 xs g = groupLoop getValue ae2 xs g := by
  induction xs generalizing g with
  | nil => rfl
  | cons x rest ih =>
    have ih2 := fun g0 => ih g0 (fun u hu => h u (List.mem_cons_of_mem x hu))
    cases x with
    | nilPtr => rfl
    | val v =>
      have h0 := h v (List.mem_cons_self _ rest)
      rcases hgv : getValue v with ⟨value, e⟩
      rw [hgv] at h0
      simp only at h0
      cases e with
      | some err => simp only [groupLoop, hgv]
      | none =>
        by_cases hn : value = Value.nil
        · simp only [groupLoop, hgv, hn, ne_eq, not_true_eq_false, if_false]
          exact ih2 g
        · simp only [groupLoop, hgv, ne_eq, hn, not_false_eq_true, if_true, h0 g]
          cases ae2 g value v with
          | panic p => rfl
          | ret g1 => exact ih2 g1

/-- C19: for a non-empty separator that occurs in none of the strings the path
resolves to, `groupByMulti` on a collection has the outcome of `groupBy`: the
same map (same keys, same buckets in the same order), or the same panic. -/
theorem groupByMulti_eq_groupBy (deepGet : Value → Str → Value) (xs : List Slot)
    (K sep : Str) (hsep : sep ≠ [])
    (hno : ∀ v, Slot.val v ∈ xs →
      ∀ s, deepGet v K = Value.str s → contains s sep = false) :
    groupByMulti deepGet (.seq xs) K sep = groupBy deepGet (.seq xs) K := by
  -- `hsep` is not needed for the equality; it is kept because the claim states it
  have _ := hsep
  show groupLoop (fun v => (deepGet v K, none)) _ xs []
    = groupLoop (fun v => (deepGet v K, none)) addSingle xs []
  apply groupLoop_congr
  intro v hv g0
  simp only
  cases hd : deepGet v K with
  | str s =>
    have hc := hno v hv s hd
    have hi : index s sep = none := by
      cases hx : index s sep with
      | none => rfl
      | some m => simp [contains, hx] at hc
    simp only [split_of_index_none s sep hi]
    rfl
  | nil => rfl
  | container c => rfl
  | other t => rfl

/-- Witness of `groupByMulti_eq_groupBy`: the values `"a"`, `"b"`, `"a"` contain
no `","`. -/
theorem groupByMulti_eq_groupBy_witness :
    groupByMulti (fun v _ => v)
        (.ofValues [.str "a".toList, .str "b".toList, .nil, .str "a".toList]) []
        ",".toList
      = groupBy (fun v _ => v)
        (.ofValues [.str "a".toList, .str "b".toList, .nil, .str "a".toList]) []
    ∧ groupBy (fun v _ => v)
        (.ofValues [.str "a".toList, .str "b".toList, .nil, .str "a".toList]) []
      = .ret (some [("a".toList, [.str "a".toList, .str "a".toList]),
          ("b".toList, [.str "b".toList])], none) := by
  refine ⟨groupByMulti_eq_groupBy (fun v _ => v)
    ([.str "a".toList, .str "b".toList, .nil, .str "a".toList].map Slot.val) []
    ",".toList (by decide) ?_, by decide⟩
  intro v hv s hs
  simp only at hs
  subst hs
  simp only [List.map_cons, List.map_nil, List.mem_cons, Slot.val.injEq, Value.str.injEq,
    reduceCtorEq, List.mem_singleton, List.not_mem_nil, or_false, false_or] at hv
  rcases hv with h | h | h <;> subst h <;> decide

/-! ## At least one entry, at least one bucket -/

theorem splitKeyValuePairs_ne_nil (input listSep kvpSep : Str) (defaultKey : List Str)
    (hl : listSep ≠ []) (hk : kvpSep ≠ []) :
    ∃ output : GoMap Str,
      splitKeyValuePairs input listSep kvpSep defaultKey = .ret output
      ∧ output.keys.Nodup ∧ output.keys ≠ [] := by
  obtain ⟨kvs, hkvs⟩ := kvpEntry_forall₂ kvpSep defaultKey hk (split input listSep)
  refine ⟨_, kvpLoop_eq_foldl kvpSep defaultKey _ kvs hkvs [],
    nodup_keys_foldl_set kvs [] List.nodup_nil, ?_⟩
  cases hs : split input listSep with
  | nil => exact absurd hs (split_ne_nil input listSep hl)
  | cons it rest =>
    rw [hs] at hkvs
    cases hkvs with
    | cons hkv hrest =>
      rename_i kv kvs1
      intro hnil
      have hmem : kv.1 ∈ GoMap.keys
          ((kv :: kvs1).foldl (fun o kv => GoMap.set o kv.1 kv.2) ([] : GoMap Str)) := by
        rw [mem_keys_foldl_set]
        exact Or.inr (List.mem_map.mpr ⟨kv, List.mem_cons_self kv kvs1, rfl⟩)
      rw [hnil] at hmem
      cases hmem

theorem groupByMultiKeyValuePairs_run (ord : KeyOrder) (deepGet : Value → Str → Value)
    (C : List Value) (K listSep kvpSep defaultKey : Str) (hne : kvpSep ≠ [])
    (hC : ∀ v ∈ C, deepGet v K = Value.nil ∨ (deepGet v K).isStr = true) :
    groupByMultiKeyValuePairs ord deepGet (.ofValues C) K listSep kvpSep defaultKey
      = .ret (some (C.foldl (fun g1 v => appendEach g1
          (kvpKeys ord deepGet K listSep kvpSep defaultKey v) v) []), none) := by
  show groupLoop (fun v => (deepGet v K, none)) _ (C.map Slot.val) [] = _
  apply groupLoop_appendEach
  intro v hv
  refine ⟨rfl, ?_, ?_⟩
  · intro h
    simp only at h
    simp only [kvpKeys, h]
  · intro hn g1
    rcases hC v hv with h | h
    · exact absurd h hn
    · obtain ⟨s, hs⟩ := (Value.isStr_iff _).mp h
      obtain ⟨out, hout, _⟩ := splitKeyValuePairs_total s listSep kvpSep [defaultKey] hne
      simp only [hs, kvpKeys, hout]

theorem mem_flatMap_replicate (C : List Value) (n : Value → Nat) (v : Value)
    (hv : v ∈ C) (hn : 0 < n v) : v ∈ C.flatMap (fun u => List.replicate (n u) u) := by
  rw [List.mem_flatMap]
  exact ⟨v, hv, List.mem_replicate.mpr ⟨Nat.pos_iff_ne_zero.mp hn, rfl⟩⟩

/-- C20: for a non-empty `listSep` and a non-empty `kvpSep`,
`splitKeyValuePairs` returns a map with at least one entry, for every input
and default key; on the empty input the map binds the empty string to the
empty string when no default key is given, and the default key to the empty
string when a non-empty one is given; `groupByMultiKeyValuePairs` returns a
map on every collection without nil pointer elements whose paths resolve to
nothing or to a string; and in every map that `groupByMultiKeyValuePairs`
returns, every element whose path resolves to a string lies in at least one
bucket. -/
theorem splitKeyValuePairs_at_least_one (listSep kvpSep : Str)
    (hl : listSep ≠ []) (hk : kvpSep ≠ []) :
    (∀ (input : Str) (defaultKey : List Str),
      ∃ output : GoMap Str,
        splitKeyValuePairs input listSep kvpSep defaultKey = .ret output ∧ output ≠ [])
    ∧ splitKeyValuePairs [] listSep kvpSep [] = .ret [([], [])]
    ∧ (∀ (d : Str) (more : List Str), d ≠ [] →
        splitKeyValuePairs [] listSep kvpSep (d :: more) = .ret [(d, [])])
    ∧ (∀ (ord : KeyOrder) (deepGet : Value → Str → Value) (C : List Value)
        (K defaultKey : Str), ord.Valid →
        (∀ v ∈ C, deepGet v K = Value.nil ∨ (deepGet v K).isStr = true) →
        ∃ groups : Groups,
          groupByMultiKeyValuePairs ord deepGet (.ofValues C) K listSep kvpSep
              defaultKey
            = .ret (some groups, none)
          ∧ ∀ v ∈ C, (deepGet v K).isStr = true → ∃ k, v ∈ bucket groups k)
    ∧ (∀ (ord : KeyOrder) (deepGet : Value → Str → Value) (entries : Entries)
        (K defaultKey : Str) (groups : Groups), ord.Valid →
        groupByMultiKeyValuePairs ord deepGet entries K listSep kvpSep defaultKey
          = .ret (some groups, none) →
        ∃ C : List Value, entries = .ofValues C
          ∧ ∀ v ∈ C, (deepGet v K).isStr = true → ∃ k, v ∈ bucket groups k) := by
  have hs : split [] listSep = [[]] := by
    simp only [split, hl, if_false]
    rfl
  have hc : contains [] kvpSep = false := by
    simp [contains, index, hk]
  have hmem : ∀ (ord : KeyOrder) (deepGet : Value → Str → Value) (C : List Value)
      (K defaultKey : Str), ord.Valid →
      ∀ v ∈ C, (deepGet v K).isStr = true →
      ∃ k, v ∈ bucket (C.foldl (fun g1 v => appendEach g1
          (kvpKeys ord deepGet K listSep kvpSep defaultKey v) v) ([] : Groups)) k := by
    intro ord deepGet C K defaultKey hord v hv hstr
    obtain ⟨s, hsv⟩ := (Value.isStr_iff _).mp hstr
    obtain ⟨out, hout, _, hne⟩ :=
      splitKeyValuePairs_ne_nil s listSep kvpSep [defaultKey] hl hk
    obtain ⟨k, hkm⟩ := List.exists_mem_of_ne_nil _ hne
    have hkk : k ∈ kvpKeys ord deepGet K listSep kvpSep defaultKey v :=
      (mem_kvpKeys ord hord deepGet K listSep kvpSep defaultKey v k).mpr
        ⟨s, out, hsv, hout, hkm⟩
    refine ⟨k, ?_⟩
    rw [bucket_foldl_appendEach]
    apply List.mem_append_right
    exact mem_flatMap_replicate C _ v hv (List.count_pos_iff.mpr hkk)
  refine ⟨?_, ?_, ?_, ?_, ?_⟩
  · intro input defaultKey
    obtain ⟨output, ho, _, hne⟩ :=
      splitKeyValuePairs_ne_nil input listSep kvpSep defaultKey hl hk
    refine ⟨output, ho, ?_⟩
    intro h
    rw [h] at hne
    exact hne rfl
  · simp only [splitKeyValuePairs, hs, kvpLoop, kvpEntry_of_not_contains [] kvpSep [] hc]
    rfl
  · intro d more hd
    simp only [splitKeyValuePairs, hs, kvpLoop,
      kvpEntry_of_not_contains [] kvpSep (d :: more) hc, hd, if_false]
    rfl
  · intro ord deepGet C K defaultKey hord hC
    exact ⟨_, groupByMultiKeyValuePairs_run ord deepGet C K listSep kvpSep defaultKey hk hC,
      hmem ord deepGet C K defaultKey hord⟩
  · intro ord deepGet entries K defaultKey groups hord hrun
    obtain ⟨C, hC, hg⟩ := groupByMultiKeyValuePairs_ret_foldl ord deepGet entries K
      listSep kvpSep defaultKey groups hrun
    refine ⟨C, hC, ?_⟩
    rw [hg]
    exact hmem ord deepGet C K defaultKey hord

/-- Witness of `splitKeyValuePairs_at_least_one`: the empty input with the
separators `","` and `"="`, without and with the default key `d`. -/
theorem splitKeyValuePairs_at_least_one_witness :
    splitKeyValuePairs [] ",".toList "=".toList [] = .ret [([], [])]
    ∧ splitKeyValuePairs [] ",".toList "=".toList ["d".toList] = .ret [("d".toList, [])]
    ∧ ∃ groups : Groups,
        groupByMultiKeyValuePairs (fun ks => ks) (fun v _ => v) (.ofValues [.str []]) []
          ",".toList "=".toList [] = .ret (some groups, none)
        ∧ ∃ k, Value.str [] ∈ bucket groups k := by
  obtain ⟨_, h2, h3, h4, _⟩ := splitKeyValuePairs_at_least_one ",".toList "=".toList
    (by decide) (by decide)
  obtain ⟨groups, hg, hb⟩ := h4 (fun ks => ks) (fun v _ => v) [.str []] [] []
    (fun ks => List.Perm.refl ks) (by decide)
  exact ⟨h2, h3 "d".toList [] (by decide), groups, hg,
    hb (.str []) (List.mem_singleton_self _) rfl⟩

end GroupBy
